import Mathlib

/-!
# libseq: symbolic expressions, their serializer and their simplifier

A shallow embedding of `src/src/expressions.h`.

* `expr_t` is the tagged union `struct __expr_t`; every constructor macro of the
  header (`Const`, `Var`, `Product`, ...) is a constructor of the inductive type.
  Children are owned sub-trees (the header stores pointers; the trees built by
  the macros share no node that `simplify` rewrites).
* The scalar type `f64` (declared in the absent `primitives.h`), the arithmetic
  on it, the `math.h` functions and the `"%.3g"` conversion of `printf` are not
  part of the repository.  They are taken as a parameter, `FloatEnv F`; every
  theorem holds for every such environment, IEEE doubles with the C library
  among them.
* The output buffer is a memory `Mem` of byte cells addressed by natural numbers;
  a cell holds `none` until something is stored in it.
* `usize` counts are natural numbers: a tree whose rendering is longer than
  `2^64` bytes does not fit in memory.  The depth argument of the two serializer
  passes is a natural number as well, the number of ancestors of the node; the
  passes with the depth in a 64-bit `usize`, where `depth + 1` wraps, are
  `count_serialized_expr_size_usize` and `counted_serialize_expr_usize`, and the
  two readings agree on every tree of height at most `2^64` entered at depth 0.
-/

namespace Libseq

/-! ## Data model -/

/-- The discriminant `expr_tag_t`. -/
inductive expr_tag_t where
  | EXPR_CONSTANT
  | EXPR_VARIABLE
  | EXPR_PRODUCT
  | EXPR_QUOTIENT
  | EXPR_SUM
  | EXPR_DIFFERENCE
  | EXPR_EXPONENTIAL
  | EXPR_LOGARITHM
  | EXPR_POWER
  | EXPR_SIN
  | EXPR_COS
  | EXPR_TAN
  | EXPR_NEGATION
  | EXPR_INVERSE
  deriving DecidableEq

/-- The node type `expr_t`, one constructor per constructor macro. -/
inductive expr_t (F : Type) where
  | Const (constant : F)
  | Var (name : UInt8)
  | Product (x y : expr_t F)
  | Quotient (x y : expr_t F)
  | Sum (x y : expr_t F)
  | Difference (x y : expr_t F)
  | Exponential (x y : expr_t F)
  | Logarithm (base e : expr_t F)
  | Power (x y : expr_t F)
  | Sin (e : expr_t F)
  | Cos (e : expr_t F)
  | Tan (e : expr_t F)
  | Negation (e : expr_t F)
  | Inverse (e : expr_t F)
  deriving DecidableEq

open expr_tag_t

/-- The field `e->variant`. -/
def expr_t.variant {F : Type} : expr_t F → expr_tag_t
  | .Const _ => EXPR_CONSTANT
  | .Var _ => EXPR_VARIABLE
  | .Product _ _ => EXPR_PRODUCT
  | .Quotient _ _ => EXPR_QUOTIENT
  | .Sum _ _ => EXPR_SUM
  | .Difference _ _ => EXPR_DIFFERENCE
  | .Exponential _ _ => EXPR_EXPONENTIAL
  | .Logarithm _ _ => EXPR_LOGARITHM
  | .Power _ _ => EXPR_POWER
  | .Sin _ => EXPR_SIN
  | .Cos _ => EXPR_COS
  | .Tan _ => EXPR_TAN
  | .Negation _ => EXPR_NEGATION
  | .Inverse _ => EXPR_INVERSE

/-- The double-precision operations the header takes from the compiler, from
`math.h` and from `printf`; `fmt c` is the text `"%.3g"` produces for `c`,
`neg` is unary minus (used by no function of the header, only by `value`). -/
structure FloatEnv (F : Type) where
  add : F → F → F
  sub : F → F → F
  mul : F → F → F
  div : F → F → F
  pow : F → F → F
  log : F → F
  sin : F → F
  cos : F → F
  tan : F → F
  one : F
  neg : F → F
  fmt : F → List UInt8

/-! ## The output buffer -/

/-- Byte-addressed memory; `none` marks a cell nothing was stored in. -/
abbrev Mem := Nat → Option UInt8

/-- The memory nothing was stored in yet. -/
def Mem.fresh : Mem := fun _ => none

/-- The assignment `p[i] = b`. -/
def store (m : Mem) (i : Nat) (b : UInt8) : Mem :=
  fun j => if j = i then some b else m j

/-- The bytes of a C string literal, without its terminator. -/
def cstr (s : String) : List UInt8 := s.toList.flatMap String.utf8EncodeChar

/-- The call `memcpy(dst, src, strlen(src))`. -/
def memcpy (m : Mem) (dst : Nat) : List UInt8 → Mem
  | [] => m
  | b :: bs => memcpy (store m dst b) (dst + 1) bs

/-- The call `sprintf(dst, ...)` producing the text `s`: the text, then a
terminating zero byte. -/
def sprintf (m : Mem) (dst : Nat) (s : List UInt8) : Mem :=
  store (memcpy m dst s) (dst + s.length) 0

/-- The call `snprintf(NULL, 0, ...)`: the number of bytes the text `s` has. -/
def snprintf0 (s : List UInt8) : Nat := s.length

/-- The bytes `n` cells of memory hold from address `p` on. -/
def Mem.read (m : Mem) (p : Nat) (n : Nat) : List (Option UInt8) :=
  (List.range n).map (fun i => m (p + i))

/-! ## Serializer -/

/-- The local `parens_condition` of both serializer passes. -/
def parens_condition (variant : expr_tag_t) (depth : Nat) : Bool :=
  decide (depth > 0) &&
    (variant != EXPR_CONSTANT) &&
    (variant != EXPR_VARIABLE) &&
    (variant != EXPR_PRODUCT) &&
    (variant != EXPR_LOGARITHM) &&
    (variant != EXPR_SIN) &&
    (variant != EXPR_COS) &&
    (variant != EXPR_TAN)

/-- The measuring pass `count_serialized_expr_size`, the depth being the number
of ancestors of the node, a natural number: this is the function on every call
that `serialized_expr_size` starts, and more generally while
`depth + height e ≤ 2^64` (`count_serialized_expr_size_usize_eq`);
`count_serialized_expr_size_usize` is the function on every `usize` depth. -/
def count_serialized_expr_size {F : Type} (ops : FloatEnv F) : expr_t F → Nat → Nat
  | .Const c, depth =>
    let offset_written := if parens_condition EXPR_CONSTANT depth then 2 else 0
    offset_written + snprintf0 (ops.fmt c)
  | .Var _, depth =>
    let offset_written := if parens_condition EXPR_VARIABLE depth then 2 else 0
    offset_written + 1
  | .Product x y, depth =>
    let offset_written := if parens_condition EXPR_PRODUCT depth then 2 else 0
    let x_variant := x.variant
    let y_variant := y.variant
    if (x_variant == EXPR_CONSTANT && y_variant == EXPR_VARIABLE) || x_variant == EXPR_SUM then
      let offset_written := offset_written + count_serialized_expr_size ops x (depth + 1)
      offset_written + count_serialized_expr_size ops y (depth + 1)
    else if (x_variant == EXPR_VARIABLE && y_variant == EXPR_CONSTANT)
        || y_variant == EXPR_SUM then
      let offset_written := offset_written + count_serialized_expr_size ops y (depth + 1)
      offset_written + count_serialized_expr_size ops x (depth + 1)
    else
      let offset_written := offset_written + count_serialized_expr_size ops x (depth + 1)
      let offset_written := offset_written + 1
      offset_written + count_serialized_expr_size ops y (depth + 1)
  | .Quotient x y, depth =>
    let offset_written := if parens_condition EXPR_QUOTIENT depth then 2 else 0
    let offset_written := offset_written + count_serialized_expr_size ops x (depth + 1)
    let offset_written := offset_written + 1
    offset_written + count_serialized_expr_size ops y (depth + 1)
  | .Sum x y, depth =>
    let offset_written := if parens_condition EXPR_SUM depth then 2 else 0
    let offset_written := offset_written + count_serialized_expr_size ops x (depth + 1)
    let offset_written := offset_written + 1
    offset_written + count_serialized_expr_size ops y (depth + 1)
  | .Difference x y, depth =>
    let offset_written := if parens_condition EXPR_DIFFERENCE depth then 2 else 0
    let offset_written := offset_written + count_serialized_expr_size ops x (depth + 1)
    let offset_written := offset_written + 1
    offset_written + count_serialized_expr_size ops y (depth + 1)
  | .Exponential x y, depth =>
    let offset_written := if parens_condition EXPR_EXPONENTIAL depth then 2 else 0
    let offset_written := offset_written + count_serialized_expr_size ops x (depth + 1)
    let offset_written := offset_written + 1
    offset_written + count_serialized_expr_size ops y (depth + 1)
  | .Power x y, depth =>
    let offset_written := if parens_condition EXPR_POWER depth then 2 else 0
    let offset_written := offset_written + count_serialized_expr_size ops x (depth + 1)
    let offset_written := offset_written + 1
    offset_written + count_serialized_expr_size ops y (depth + 1)
  | .Logarithm x y, depth =>
    let offset_written := if parens_condition EXPR_LOGARITHM depth then 2 else 0
    offset_written + (3
      + count_serialized_expr_size ops x (depth + 1)
      + count_serialized_expr_size ops y (depth + 1) + 3)
  | .Sin x, depth =>
    let offset_written := if parens_condition EXPR_SIN depth then 2 else 0
    offset_written + (5 + count_serialized_expr_size ops x (depth + 1))
  | .Cos x, depth =>
    let offset_written := if parens_condition EXPR_COS depth then 2 else 0
    offset_written + (5 + count_serialized_expr_size ops x (depth + 1))
  | .Tan x, depth =>
    let offset_written := if parens_condition EXPR_TAN depth then 2 else 0
    offset_written + (5 + count_serialized_expr_size ops x (depth + 1))
  | .Negation x, depth =>
    let offset_written := if parens_condition EXPR_NEGATION depth then 2 else 0
    let offset_written := offset_written + 1
    offset_written + count_serialized_expr_size ops x (depth + 1)
  | .Inverse x, depth =>
    let offset_written := if parens_condition EXPR_INVERSE depth then 2 else 0
    let offset_written := offset_written + count_serialized_expr_size ops x (depth + 1)
    offset_written + (cstr "⁻¹").length

/-- The statement `if (parens_condition) serialization_buffer[offset_written++] = '('`
that opens `counted_serialize_expr`, from `offset_written = 0`. -/
def open_paren (m : Mem) (buf : Nat) (parens : Bool) : Mem × Nat :=
  if parens then (store m buf '('.toUInt8, 1) else (m, 0)

/-- The statement `if (parens_condition) serialization_buffer[offset_written++] = ')'`
that closes `counted_serialize_expr`, and its `return offset_written`. -/
def close_paren (m : Mem) (buf : Nat) (offset_written : Nat) (parens : Bool) : Mem × Nat :=
  if parens then (store m (buf + offset_written) ')'.toUInt8, offset_written + 1)
  else (m, offset_written)

/-- The rendering pass `counted_serialize_expr`: `m` is the memory before the
call, `buf` the address `serialization_buffer`; the result is the memory after
the call and the returned `offset_written`.  The depth is the number of
ancestors of the node, a natural number: this is the function on every call
that `serialize_expr` starts, and more generally while `depth + height e ≤ 2^64`
(`counted_serialize_expr_usize_eq`); `counted_serialize_expr_usize` is the
function on every `usize` depth. -/
def counted_serialize_expr {F : Type} (ops : FloatEnv F) (m : Mem) (buf : Nat) :
    expr_t F → Nat → Mem × Nat
  | .Const c, depth =>
    let parens := parens_condition EXPR_CONSTANT depth
    let s := open_paren m buf parens
    let num_of_digits := snprintf0 (ops.fmt c)
    let m1 := sprintf s.1 (buf + s.2) (ops.fmt c)
    close_paren m1 buf (s.2 + num_of_digits) parens
  | .Var v, depth =>
    let parens := parens_condition EXPR_VARIABLE depth
    let s := open_paren m buf parens
    let m1 := sprintf s.1 (buf + s.2) [v]
    close_paren m1 buf (s.2 + 1) parens
  | .Product x y, depth =>
    let parens := parens_condition EXPR_PRODUCT depth
    let s := open_paren m buf parens
    let x_variant := x.variant
    let y_variant := y.variant
    if (x_variant == EXPR_CONSTANT && y_variant == EXPR_VARIABLE) || x_variant == EXPR_SUM then
      let r1 := counted_serialize_expr ops s.1 (buf + s.2) x (depth + 1)
      let o1 := s.2 + r1.2
      let r2 := counted_serialize_expr ops r1.1 (buf + o1) y (depth + 1)
      close_paren r2.1 buf (o1 + r2.2) parens
    else if (x_variant == EXPR_VARIABLE && y_variant == EXPR_CONSTANT)
        || y_variant == EXPR_SUM then
      let r1 := counted_serialize_expr ops s.1 (buf + s.2) y (depth + 1)
      let o1 := s.2 + r1.2
      let r2 := counted_serialize_expr ops r1.1 (buf + o1) x (depth + 1)
      close_paren r2.1 buf (o1 + r2.2) parens
    else
      let r1 := counted_serialize_expr ops s.1 (buf + s.2) x (depth + 1)
      let o1 := s.2 + r1.2
      let m1 := store r1.1 (buf + o1) '*'.toUInt8
      let o2 := o1 + 1
      let r2 := counted_serialize_expr ops m1 (buf + o2) y (depth + 1)
      close_paren r2.1 buf (o2 + r2.2) parens
  | .Quotient x y, depth =>
    let parens := parens_condition EXPR_QUOTIENT depth
    let s := open_paren m buf parens
    let r1 := counted_serialize_expr ops s.1 (buf + s.2) x (depth + 1)
    let o1 := s.2 + r1.2
    let m1 := store r1.1 (buf + o1) '/'.toUInt8
    let o2 := o1 + 1
    let r2 := counted_serialize_expr ops m1 (buf + o2) y (depth + 1)
    close_paren r2.1 buf (o2 + r2.2) parens
  | .Sum x y, depth =>
    let parens := parens_condition EXPR_SUM depth
    let s := open_paren m buf parens
    let r1 := counted_serialize_expr ops s.1 (buf + s.2) x (depth + 1)
    let o1 := s.2 + r1.2
    let m1 := store r1.1 (buf + o1) '+'.toUInt8
    let o2 := o1 + 1
    let r2 := counted_serialize_expr ops m1 (buf + o2) y (depth + 1)
    close_paren r2.1 buf (o2 + r2.2) parens
  | .Difference x y, depth =>
    let parens := parens_condition EXPR_DIFFERENCE depth
    let s := open_paren m buf parens
    let r1 := counted_serialize_expr ops s.1 (buf + s.2) x (depth + 1)
    let o1 := s.2 + r1.2
    let m1 := store r1.1 (buf + o1) '-'.toUInt8
    let o2 := o1 + 1
    let r2 := counted_serialize_expr ops m1 (buf + o2) y (depth + 1)
    close_paren r2.1 buf (o2 + r2.2) parens
  | .Exponential x y, depth =>
    let parens := parens_condition EXPR_EXPONENTIAL depth
    let s := open_paren m buf parens
    let r1 := counted_serialize_expr ops s.1 (buf + s.2) x (depth + 1)
    let o1 := s.2 + r1.2
    let m1 := store r1.1 (buf + o1) '^'.toUInt8
    let o2 := o1 + 1
    let r2 := counted_serialize_expr ops m1 (buf + o2) y (depth + 1)
    close_paren r2.1 buf (o2 + r2.2) parens
  | .Power x y, depth =>
    let parens := parens_condition EXPR_POWER depth
    let s := open_paren m buf parens
    let r1 := counted_serialize_expr ops s.1 (buf + s.2) x (depth + 1)
    let o1 := s.2 + r1.2
    let m1 := store r1.1 (buf + o1) '^'.toUInt8
    let o2 := o1 + 1
    let r2 := counted_serialize_expr ops m1 (buf + o2) y (depth + 1)
    close_paren r2.1 buf (o2 + r2.2) parens
  | .Logarithm x y, depth =>
    let parens := parens_condition EXPR_LOGARITHM depth
    let s := open_paren m buf parens
    let m0 := memcpy s.1 (buf + s.2) (cstr "log(")
    let o0 := s.2 + (cstr "log(").length
    let r1 := counted_serialize_expr ops m0 (buf + o0) x (depth + 1)
    let o1 := o0 + r1.2
    let m1 := store r1.1 (buf + o1) ','.toUInt8
    let o2 := o1 + 1
    let r2 := counted_serialize_expr ops m1 (buf + o2) y (depth + 1)
    let o3 := o2 + r2.2
    let m3 := store r2.1 (buf + o3) ')'.toUInt8
    close_paren m3 buf (o3 + 1) parens
  | .Sin x, depth =>
    let parens := parens_condition EXPR_SIN depth
    let s := open_paren m buf parens
    let m0 := memcpy s.1 (buf + s.2) (cstr "sin(")
    let o0 := s.2 + (cstr "sin(").length
    let r1 := counted_serialize_expr ops m0 (buf + o0) x (depth + 1)
    let o1 := o0 + r1.2
    let m1 := store r1.1 (buf + o1) ')'.toUInt8
    close_paren m1 buf (o1 + 1) parens
  | .Cos x, depth =>
    let parens := parens_condition EXPR_COS depth
    let s := open_paren m buf parens
    let m0 := memcpy s.1 (buf + s.2) (cstr "cos(")
    let o0 := s.2 + (cstr "cos(").length
    let r1 := counted_serialize_expr ops m0 (buf + o0) x (depth + 1)
    let o1 := o0 + r1.2
    let m1 := store r1.1 (buf + o1) ')'.toUInt8
    close_paren m1 buf (o1 + 1) parens
  | .Tan x, depth =>
    let parens := parens_condition EXPR_TAN depth
    let s := open_paren m buf parens
    let m0 := memcpy s.1 (buf + s.2) (cstr "tan(")
    let o0 := s.2 + (cstr "tan(").length
    let r1 := counted_serialize_expr ops m0 (buf + o0) x (depth + 1)
    let o1 := o0 + r1.2
    let m1 := store r1.1 (buf + o1) ')'.toUInt8
    close_paren m1 buf (o1 + 1) parens
  | .Negation x, depth =>
    let parens := parens_condition EXPR_NEGATION depth
    let s := open_paren m buf parens
    let m0 := store s.1 (buf + s.2) '-'.toUInt8
    let o0 := s.2 + 1
    let r1 := counted_serialize_expr ops m0 (buf + o0) x (depth + 1)
    close_paren r1.1 buf (o0 + r1.2) parens
  | .Inverse x, depth =>
    let parens := parens_condition EXPR_INVERSE depth
    let s := open_paren m buf parens
    let r1 := counted_serialize_expr ops s.1 (buf + s.2) x (depth + 1)
    let o1 := s.2 + r1.2
    let m1 := memcpy r1.1 (buf + o1) (cstr "⁻¹")
    close_paren m1 buf (o1 + (cstr "⁻¹").length) parens

/-- The entry point `serialized_expr_size`. -/
def serialized_expr_size {F : Type} (ops : FloatEnv F) (e : expr_t F) : Nat :=
  count_serialized_expr_size ops e 0

/-- The entry point `serialize_expr`: the memory after the call and the count
it returns. -/
def serialize_expr {F : Type} (ops : FloatEnv F) (m : Mem) (buffer : Nat) (e : expr_t F) :
    Mem × Nat :=
  let written := counted_serialize_expr ops m buffer e 0
  written

/-! ## Classification -/

/-- The query `is_binary_expression`. -/
def is_binary_expression {F : Type} : expr_t F → Bool
  | .Const _ | .Var _ | .Negation _ | .Sin _ | .Cos _ | .Tan _ | .Inverse _ => false
  | .Product _ _ | .Quotient _ _ | .Sum _ _ | .Difference _ _ | .Exponential _ _
  | .Logarithm _ _ | .Power _ _ => true

/-- The query `is_simplifiable`. -/
def is_simplifiable {F : Type} : expr_t F → Bool
  | .Const _ | .Var _ => false
  | .Product x y | .Quotient x y | .Sum x y | .Difference x y | .Power x y
  | .Logarithm x y | .Exponential x y =>
    let x_variant := x.variant
    let y_variant := y.variant
    if x_variant == EXPR_CONSTANT && y_variant == EXPR_CONSTANT then true
    else is_simplifiable x || is_simplifiable y
  | .Negation x =>
    if x.variant == EXPR_CONSTANT then false
    else is_simplifiable x
  | .Sin x | .Cos x | .Tan x | .Inverse x =>
    if x.variant == EXPR_CONSTANT then true
    else is_simplifiable x

/-! ## Simplifier -/

/-- The procedure `simplify`, which rewrites `*e` in place, as a function from
the tree before the call to the tree after it.  The C function calls itself on
the children and on the node it rebuilt (a local variable, not a sub-tree of
`*e`), so the recursion is bounded by `fuel`, the number of nested activations
allowed; `none` means the bound was reached before the call returned. -/
def simplify_fuel {F : Type} (ops : FloatEnv F) : Nat → expr_t F → Option (expr_t F)
  | 0, _ => none
  | _ + 1, .Const c => some (.Const c)
  | _ + 1, .Var v => some (.Var v)
  | fuel + 1, .Product x y =>
    match x, y with
    | .Const xc, .Const yc => some (.Const (ops.mul xc yc))
    | _, _ =>
      match simplify_fuel ops fuel x with
      | none => none
      | some x =>
        match simplify_fuel ops fuel y with
        | none => none
        | some y =>
          let product := expr_t.Product x y
          if is_simplifiable product then simplify_fuel ops fuel product else some product
  | fuel + 1, .Quotient x y =>
    match x, y with
    | .Const xc, .Const yc => some (.Const (ops.div xc yc))
    | _, _ =>
      match simplify_fuel ops fuel x with
      | none => none
      | some x =>
        match simplify_fuel ops fuel y with
        | none => none
        | some y =>
          let quotient := expr_t.Quotient x y
          if is_simplifiable quotient then simplify_fuel ops fuel quotient else some quotient
  | fuel + 1, .Sum x y =>
    match x, y with
    | .Const xc, .Const yc => some (.Const (ops.add xc yc))
    | _, _ =>
      match simplify_fuel ops fuel x with
      | none => none
      | some x =>
        match simplify_fuel ops fuel y with
        | none => none
        | some y =>
          let sum := expr_t.Sum x y
          if is_simplifiable sum then simplify_fuel ops fuel sum else some sum
  | fuel + 1, .Difference x y =>
    match x, y with
    | .Const xc, .Const yc => some (.Const (ops.sub xc yc))
    | _, _ =>
      match simplify_fuel ops fuel x with
      | none => none
      | some x =>
        match simplify_fuel ops fuel y with
        | none => none
        | some y =>
          let difference := expr_t.Difference x y
          if is_simplifiable difference then simplify_fuel ops fuel difference
          else some difference
  | fuel + 1, .Exponential x y =>
    match x, y with
    | .Const xc, .Const yc => some (.Const (ops.pow xc yc))
    | _, _ =>
      match simplify_fuel ops fuel x with
      | none => none
      | some x =>
        match simplify_fuel ops fuel y with
        | none => none
        | some y =>
          let exponential := expr_t.Exponential x y
          if is_simplifiable exponential then simplify_fuel ops fuel exponential
          else some exponential
  | fuel + 1, .Logarithm base expr =>
    match base, expr with
    | .Const bc, .Const ec => some (.Const (ops.div (ops.log ec) (ops.log bc)))
    | _, _ =>
      match simplify_fuel ops fuel base with
      | none => none
      | some base =>
        match simplify_fuel ops fuel expr with
        | none => none
        | some expr =>
          let logarithm := expr_t.Logarithm base expr
          if is_simplifiable logarithm then simplify_fuel ops fuel logarithm
          else some logarithm
  | fuel + 1, .Power x y =>
    match x, y with
    | .Const xc, .Const yc => some (.Const (ops.pow xc yc))
    | _, _ =>
      match simplify_fuel ops fuel x with
      | none => none
      | some x =>
        match simplify_fuel ops fuel y with
        | none => none
        | some y =>
          let power := expr_t.Power x y
          if is_simplifiable power then simplify_fuel ops fuel power else some power
  | fuel + 1, .Sin x =>
    match x with
    | .Const xc => some (.Const (ops.sin xc))
    | _ =>
      match simplify_fuel ops fuel x with
      | none => none
      | some x =>
        let sin := expr_t.Sin x
        if is_simplifiable sin then simplify_fuel ops fuel sin else some sin
  | fuel + 1, .Cos x =>
    match x with
    | .Const xc => some (.Const (ops.cos xc))
    | _ =>
      match simplify_fuel ops fuel x with
      | none => none
      | some x =>
        let cos := expr_t.Cos x
        if is_simplifiable cos then simplify_fuel ops fuel cos else some cos
  | fuel + 1, .Tan x =>
    match x with
    | .Const xc => some (.Const (ops.tan xc))
    | _ =>
      match simplify_fuel ops fuel x with
      | none => none
      | some x =>
        let tan := expr_t.Tan x
        if is_simplifiable tan then simplify_fuel ops fuel tan else some tan
  | fuel + 1, .Negation x =>
    match simplify_fuel ops fuel x with
    | none => none
    | some x =>
      let negation := expr_t.Negation x
      if is_simplifiable negation then simplify_fuel ops fuel negation else some negation
  | fuel + 1, .Inverse x =>
    match x with
    | .Const xc => some (.Const (ops.div ops.one xc))
    | _ =>
      match simplify_fuel ops fuel x with
      | none => none
      | some x =>
        let inverse := expr_t.Inverse x
        if is_simplifiable inverse then simplify_fuel ops fuel inverse else some inverse

/-- The number of nodes on the longest path from the root to a leaf. -/
def height {F : Type} : expr_t F → Nat
  | .Const _ | .Var _ => 1
  | .Product x y | .Quotient x y | .Sum x y | .Difference x y | .Exponential x y
  | .Logarithm x y | .Power x y => max (height x) (height y) + 1
  | .Sin x | .Cos x | .Tan x | .Negation x | .Inverse x => height x + 1

/-- The tree `simplify` leaves in `*e`: `simplify_fuel` with `height e` nested
activations allowed, which `simplify_fuel_eq_bottom_up` shows to be enough (the
fallback `e` is never taken). -/
def simplify {F : Type} (ops : FloatEnv F) (e : expr_t F) : expr_t F :=
  match simplify_fuel ops (height e) e with
  | some r => r
  | none => e

/-- What the caller finds in its buffer after `serialize_expr(buffer, e)` on a
buffer nothing was stored in: the cells `buffer[0 .. written)`. -/
def serialize_text {F : Type} (ops : FloatEnv F) (e : expr_t F) : List (Option UInt8) :=
  let w := serialize_expr ops Mem.fresh 0 e
  w.1.read 0 w.2

/-! ## Notions of the specification -/

/-- The value of an expression under an assignment `env` of the variables, by
the fold formulas of the specification (section 4.3), `Negation` being numeric
negation. -/
def value {F : Type} (ops : FloatEnv F) (env : UInt8 → F) : expr_t F → F
  | .Const c => c
  | .Var v => env v
  | .Product a b => ops.mul (value ops env a) (value ops env b)
  | .Quotient a b => ops.div (value ops env a) (value ops env b)
  | .Sum a b => ops.add (value ops env a) (value ops env b)
  | .Difference a b => ops.sub (value ops env a) (value ops env b)
  | .Exponential a b => ops.pow (value ops env a) (value ops env b)
  | .Logarithm base x => ops.div (ops.log (value ops env x)) (ops.log (value ops env base))
  | .Power a b => ops.pow (value ops env a) (value ops env b)
  | .Sin x => ops.sin (value ops env x)
  | .Cos x => ops.cos (value ops env x)
  | .Tan x => ops.tan (value ops env x)
  | .Negation x => ops.neg (value ops env x)
  | .Inverse x => ops.div ops.one (value ops env x)

/-- Whether a `Variable` node or a `Negation` node occurs in the tree. -/
def has_variable_or_negation {F : Type} : expr_t F → Bool
  | .Const _ => false
  | .Var _ => true
  | .Negation _ => true
  | .Product x y | .Quotient x y | .Sum x y | .Difference x y | .Exponential x y
  | .Logarithm x y | .Power x y => has_variable_or_negation x || has_variable_or_negation y
  | .Sin x | .Cos x | .Tan x | .Inverse x => has_variable_or_negation x

/-- Whether the node itself is a binary node with two `Constant` children or a
`Sin`, `Cos`, `Tan` or `Inverse` node with a `Constant` child. -/
def foldable_here {F : Type} : expr_t F → Bool
  | .Const _ | .Var _ | .Negation _ => false
  | .Product x y | .Quotient x y | .Sum x y | .Difference x y | .Exponential x y
  | .Logarithm x y | .Power x y => x.variant == EXPR_CONSTANT && y.variant == EXPR_CONSTANT
  | .Sin x | .Cos x | .Tan x | .Inverse x => x.variant == EXPR_CONSTANT

/-- Whether some node of the tree, the root included, is `foldable_here`. -/
def has_foldable_node {F : Type} : expr_t F → Bool
  | .Const _ => false
  | .Var _ => false
  | .Product x y => foldable_here (.Product x y) || has_foldable_node x || has_foldable_node y
  | .Quotient x y => foldable_here (.Quotient x y) || has_foldable_node x || has_foldable_node y
  | .Sum x y => foldable_here (.Sum x y) || has_foldable_node x || has_foldable_node y
  | .Difference x y =>
    foldable_here (.Difference x y) || has_foldable_node x || has_foldable_node y
  | .Exponential x y =>
    foldable_here (.Exponential x y) || has_foldable_node x || has_foldable_node y
  | .Logarithm x y =>
    foldable_here (.Logarithm x y) || has_foldable_node x || has_foldable_node y
  | .Power x y => foldable_here (.Power x y) || has_foldable_node x || has_foldable_node y
  | .Sin x => foldable_here (.Sin x) || has_foldable_node x
  | .Cos x => foldable_here (.Cos x) || has_foldable_node x
  | .Tan x => foldable_here (.Tan x) || has_foldable_node x
  | .Negation x => has_foldable_node x
  | .Inverse x => foldable_here (.Inverse x) || has_foldable_node x

/-! ## Closed form of the serializer (a proof device) -/

/-- The text `s`, between parentheses when `parens` holds. -/
def wrap (parens : Bool) (s : List UInt8) : List UInt8 :=
  if parens then '('.toUInt8 :: (s ++ [')'.toUInt8]) else s

/-- The text of a node at a given depth, as a list of bytes;
`counted_serialize_expr_eq` proves that the rendering pass stores exactly this
text, `count_serialized_expr_size_eq` that the measuring pass returns its
length. -/
def rendering {F : Type} (ops : FloatEnv F) : expr_t F → Nat → List UInt8
  | .Const c, _ => ops.fmt c
  | .Var v, _ => [v]
  | .Product x y, depth =>
    if (x.variant == EXPR_CONSTANT && y.variant == EXPR_VARIABLE) || x.variant == EXPR_SUM then
      rendering ops x (depth + 1) ++ rendering ops y (depth + 1)
    else if (x.variant == EXPR_VARIABLE && y.variant == EXPR_CONSTANT)
        || y.variant == EXPR_SUM then
      rendering ops y (depth + 1) ++ rendering ops x (depth + 1)
    else
      rendering ops x (depth + 1) ++ '*'.toUInt8 :: rendering ops y (depth + 1)
  | .Quotient x y, depth =>
    wrap (decide (depth > 0))
      (rendering ops x (depth + 1) ++ '/'.toUInt8 :: rendering ops y (depth + 1))
  | .Sum x y, depth =>
    wrap (decide (depth > 0))
      (rendering ops x (depth + 1) ++ '+'.toUInt8 :: rendering ops y (depth + 1))
  | .Difference x y, depth =>
    wrap (decide (depth > 0))
      (rendering ops x (depth + 1) ++ '-'.toUInt8 :: rendering ops y (depth + 1))
  | .Exponential x y, depth =>
    wrap (decide (depth > 0))
      (rendering ops x (depth + 1) ++ '^'.toUInt8 :: rendering ops y (depth + 1))
  | .Power x y, depth =>
    wrap (decide (depth > 0))
      (rendering ops x (depth + 1) ++ '^'.toUInt8 :: rendering ops y (depth + 1))
  | .Logarithm x y, depth =>
    cstr "log(" ++ (rendering ops x (depth + 1) ++ ','.toUInt8 ::
      (rendering ops y (depth + 1) ++ [')'.toUInt8]))
  | .Sin x, depth => cstr "sin(" ++ (rendering ops x (depth + 1) ++ [')'.toUInt8])
  | .Cos x, depth => cstr "cos(" ++ (rendering ops x (depth + 1) ++ [')'.toUInt8])
  | .Tan x, depth => cstr "tan(" ++ (rendering ops x (depth + 1) ++ [')'.toUInt8])
  | .Negation x, depth => wrap (decide (depth > 0)) ('-'.toUInt8 :: rendering ops x (depth + 1))
  | .Inverse x, depth => wrap (decide (depth > 0)) (rendering ops x (depth + 1) ++ cstr "⁻¹")

/-- Whether the last store of the rendering pass is the terminating zero of a
`sprintf`, which then stays behind the text. -/
def trailing_nul {F : Type} : expr_t F → Nat → Bool
  | .Const _, _ => true
  | .Var _, _ => true
  | .Product x y, depth =>
    if (x.variant == EXPR_CONSTANT && y.variant == EXPR_VARIABLE) || x.variant == EXPR_SUM then
      trailing_nul y (depth + 1)
    else if (x.variant == EXPR_VARIABLE && y.variant == EXPR_CONSTANT)
        || y.variant == EXPR_SUM then
      trailing_nul x (depth + 1)
    else trailing_nul y (depth + 1)
  | .Quotient _ y, depth | .Sum _ y, depth | .Difference _ y, depth
  | .Exponential _ y, depth | .Power _ y, depth =>
    !decide (depth > 0) && trailing_nul y (depth + 1)
  | .Logarithm _ _, _ | .Sin _, _ | .Cos _, _ | .Tan _, _ | .Inverse _, _ => false
  | .Negation x, depth => !decide (depth > 0) && trailing_nul x (depth + 1)

/-- The memory after the text `s` was stored from address `p` on, followed by
a terminating zero when `nul` holds. -/
def put (m : Mem) (p : Nat) (s : List UInt8) (nul : Bool) : Mem :=
  if nul then sprintf m p s else memcpy m p s

/-- The state `st` (memory and `offset_written`) reached inside a call of the
rendering pass that started on memory `m` with buffer address `buf`, after the
text `s` was written, a terminating zero behind it when `nul` holds. -/
def Wrote (m : Mem) (buf : Nat) (st : Mem × Nat) (s : List UInt8) (nul : Bool) : Prop :=
  st.1 = put m buf s nul ∧ st.2 = s.length

/-! ## Closed form of the simplifier (a proof device) -/

/-- A binary node over simplified children: folded when both are constants. -/
def fold2 {F : Type} (f : F → F → F) (mk : expr_t F → expr_t F → expr_t F)
    (x y : expr_t F) : expr_t F :=
  match x, y with
  | .Const a, .Const b => .Const (f a b)
  | _, _ => mk x y

/-- A unary node over a simplified child: folded when it is a constant. -/
def fold1 {F : Type} (f : F → F) (mk : expr_t F → expr_t F) (x : expr_t F) : expr_t F :=
  match x with
  | .Const a => .Const (f a)
  | _ => mk x

/-- One bottom-up pass that folds every node whose simplified children are
constants; `simplify_eq_bottom_up` proves that `simplify` computes it.  No
statement about the program is made on this function alone. -/
def bottom_up {F : Type} (ops : FloatEnv F) : expr_t F → expr_t F
  | .Const c => .Const c
  | .Var v => .Var v
  | .Product x y => fold2 ops.mul .Product (bottom_up ops x) (bottom_up ops y)
  | .Quotient x y => fold2 ops.div .Quotient (bottom_up ops x) (bottom_up ops y)
  | .Sum x y => fold2 ops.add .Sum (bottom_up ops x) (bottom_up ops y)
  | .Difference x y => fold2 ops.sub .Difference (bottom_up ops x) (bottom_up ops y)
  | .Exponential x y => fold2 ops.pow .Exponential (bottom_up ops x) (bottom_up ops y)
  | .Logarithm x y =>
    fold2 (fun b a => ops.div (ops.log a) (ops.log b)) .Logarithm
      (bottom_up ops x) (bottom_up ops y)
  | .Power x y => fold2 ops.pow .Power (bottom_up ops x) (bottom_up ops y)
  | .Sin x => fold1 ops.sin .Sin (bottom_up ops x)
  | .Cos x => fold1 ops.cos .Cos (bottom_up ops x)
  | .Tan x => fold1 ops.tan .Tan (bottom_up ops x)
  | .Negation x => .Negation (bottom_up ops x)
  | .Inverse x => fold1 (fun a => ops.div ops.one a) .Inverse (bottom_up ops x)

/-! ## The serializer with the depth held in a `usize` -/

/-- The expression `depth + 1` on a `usize`, taken as 64 bits wide (the type is
declared in the absent `primitives.h`): it wraps to 0 at `2^64 - 1`. -/
def usize_succ (depth : Nat) : Nat := (depth + 1) % 2 ^ 64

/-- The measuring pass `count_serialized_expr_size` on every `usize` depth: as
`count_serialized_expr_size` above, with `depth + 1` computed on a `usize`. -/
def count_serialized_expr_size_usize {F : Type} (ops : FloatEnv F) : expr_t F → Nat → Nat
  | .Const c, depth =>
    let offset_written := if parens_condition EXPR_CONSTANT depth then 2 else 0
    offset_written + snprintf0 (ops.fmt c)
  | .Var _, depth =>
    let offset_written := if parens_condition EXPR_VARIABLE depth then 2 else 0
    offset_written + 1
  | .Product x y, depth =>
    let offset_written := if parens_condition EXPR_PRODUCT depth then 2 else 0
    let x_variant := x.variant
    let y_variant := y.variant
    if (x_variant == EXPR_CONSTANT && y_variant == EXPR_VARIABLE) || x_variant == EXPR_SUM then
      let offset_written := offset_written + count_serialized_expr_size_usize ops x (usize_succ depth)
      offset_written + count_serialized_expr_size_usize ops y (usize_succ depth)
    else if (x_variant == EXPR_VARIABLE && y_variant == EXPR_CONSTANT)
        || y_variant == EXPR_SUM then
      let offset_written := offset_written + count_serialized_expr_size_usize ops y (usize_succ depth)
      offset_written + count_serialized_expr_size_usize ops x (usize_succ depth)
    else
      let offset_written := offset_written + count_serialized_expr_size_usize ops x (usize_succ depth)
      let offset_written := offset_written + 1
      offset_written + count_serialized_expr_size_usize ops y (usize_succ depth)
  | .Quotient x y, depth =>
    let offset_written := if parens_condition EXPR_QUOTIENT depth then 2 else 0
    let offset_written := offset_written + count_serialized_expr_size_usize ops x (usize_succ depth)
    let offset_written := offset_written + 1
    offset_written + count_serialized_expr_size_usize ops y (usize_succ depth)
  | .Sum x y, depth =>
    let offset_written := if parens_condition EXPR_SUM depth then 2 else 0
    let offset_written := offset_written + count_serialized_expr_size_usize ops x (usize_succ depth)
    let offset_written := offset_written + 1
    offset_written + count_serialized_expr_size_usize ops y (usize_succ depth)
  | .Difference x y, depth =>
    let offset_written := if parens_condition EXPR_DIFFERENCE depth then 2 else 0
    let offset_written := offset_written + count_serialized_expr_size_usize ops x (usize_succ depth)
    let offset_written := offset_written + 1
    offset_written + count_serialized_expr_size_usize ops y (usize_succ depth)
  | .Exponential x y, depth =>
    let offset_written := if parens_condition EXPR_EXPONENTIAL depth then 2 else 0
    let offset_written := offset_written + count_serialized_expr_size_usize ops x (usize_succ depth)
    let offset_written := offset_written + 1
    offset_written + count_serialized_expr_size_usize ops y (usize_succ depth)
  | .Power x y, depth =>
    let offset_written := if parens_condition EXPR_POWER depth then 2 else 0
    let offset_written := offset_written + count_serialized_expr_size_usize ops x (usize_succ depth)
    let offset_written := offset_written + 1
    offset_written + count_serialized_expr_size_usize ops y (usize_succ depth)
  | .Logarithm x y, depth =>
    let offset_written := if parens_condition EXPR_LOGARITHM depth then 2 else 0
    offset_written + (3
      + count_serialized_expr_size_usize ops x (usize_succ depth)
      + count_serialized_expr_size_usize ops y (usize_succ depth) + 3)
  | .Sin x, depth =>
    let offset_written := if parens_condition EXPR_SIN depth then 2 else 0
    offset_written + (5 + count_serialized_expr_size_usize ops x (usize_succ depth))
  | .Cos x, depth =>
    let offset_written := if parens_condition EXPR_COS depth then 2 else 0
    offset_written + (5 + count_serialized_expr_size_usize ops x (usize_succ depth))
  | .Tan x, depth =>
    let offset_written := if parens_condition EXPR_TAN depth then 2 else 0
    offset_written + (5 + count_serialized_expr_size_usize ops x (usize_succ depth))
  | .Negation x, depth =>
    let offset_written := if parens_condition EXPR_NEGATION depth then 2 else 0
    let offset_written := offset_written + 1
    offset_written + count_serialized_expr_size_usize ops x (usize_succ depth)
  | .Inverse x, depth =>
    let offset_written := if parens_condition EXPR_INVERSE depth then 2 else 0
    let offset_written := offset_written + count_serialized_expr_size_usize ops x (usize_succ depth)
    offset_written + (cstr "⁻¹").length

/-- The rendering pass `counted_serialize_expr` on every `usize` depth: as
`counted_serialize_expr` above, with `depth + 1` computed on a `usize`. -/
def counted_serialize_expr_usize {F : Type} (ops : FloatEnv F) (m : Mem) (buf : Nat) :
    expr_t F → Nat → Mem × Nat
  | .Const c, depth =>
    let parens := parens_condition EXPR_CONSTANT depth
    let s := open_paren m buf parens
    let num_of_digits := snprintf0 (ops.fmt c)
    let m1 := sprintf s.1 (buf + s.2) (ops.fmt c)
    close_paren m1 buf (s.2 + num_of_digits) parens
  | .Var v, depth =>
    let parens := parens_condition EXPR_VARIABLE depth
    let s := open_paren m buf parens
    let m1 := sprintf s.1 (buf + s.2) [v]
    close_paren m1 buf (s.2 + 1) parens
  | .Product x y, depth =>
    let parens := parens_condition EXPR_PRODUCT depth
    let s := open_paren m buf parens
    let x_variant := x.variant
    let y_variant := y.variant
    if (x_variant == EXPR_CONSTANT && y_variant == EXPR_VARIABLE) || x_variant == EXPR_SUM then
      let r1 := counted_serialize_expr_usize ops s.1 (buf + s.2) x (usize_succ depth)
      let o1 := s.2 + r1.2
      let r2 := counted_serialize_expr_usize ops r1.1 (buf + o1) y (usize_succ depth)
      close_paren r2.1 buf (o1 + r2.2) parens
    else if (x_variant == EXPR_VARIABLE && y_variant == EXPR_CONSTANT)
        || y_variant == EXPR_SUM then
      let r1 := counted_serialize_expr_usize ops s.1 (buf + s.2) y (usize_succ depth)
      let o1 := s.2 + r1.2
      let r2 := counted_serialize_expr_usize ops r1.1 (buf + o1) x (usize_succ depth)
      close_paren r2.1 buf (o1 + r2.2) parens
    else
      let r1 := counted_serialize_expr_usize ops s.1 (buf + s.2) x (usize_succ depth)
      let o1 := s.2 + r1.2
      let m1 := store r1.1 (buf + o1) '*'.toUInt8
      let o2 := o1 + 1
      let r2 := counted_serialize_expr_usize ops m1 (buf + o2) y (usize_succ depth)
      close_paren r2.1 buf (o2 + r2.2) parens
  | .Quotient x y, depth =>
    let parens := parens_condition EXPR_QUOTIENT depth
    let s := open_paren m buf parens
    let r1 := counted_serialize_expr_usize ops s.1 (buf + s.2) x (usize_succ depth)
    let o1 := s.2 + r1.2
    let m1 := store r1.1 (buf + o1) '/'.toUInt8
    let o2 := o1 + 1
    let r2 := counted_serialize_expr_usize ops m1 (buf + o2) y (usize_succ depth)
    close_paren r2.1 buf (o2 + r2.2) parens
  | .Sum x y, depth =>
    let parens := parens_condition EXPR_SUM depth
    let s := open_paren m buf parens
    let r1 := counted_serialize_expr_usize ops s.1 (buf + s.2) x (usize_succ depth)
    let o1 := s.2 + r1.2
    let m1 := store r1.1 (buf + o1) '+'.toUInt8
    let o2 := o1 + 1
    let r2 := counted_serialize_expr_usize ops m1 (buf + o2) y (usize_succ depth)
    close_paren r2.1 buf (o2 + r2.2) parens
  | .Difference x y, depth =>
    let parens := parens_condition EXPR_DIFFERENCE depth
    let s := open_paren m buf parens
    let r1 := counted_serialize_expr_usize ops s.1 (buf + s.2) x (usize_succ depth)
    let o1 := s.2 + r1.2
    let m1 := store r1.1 (buf + o1) '-'.toUInt8
    let o2 := o1 + 1
    let r2 := counted_serialize_expr_usize ops m1 (buf + o2) y (usize_succ depth)
    close_paren r2.1 buf (o2 + r2.2) parens
  | .Exponential x y, depth =>
    let parens := parens_condition EXPR_EXPONENTIAL depth
    let s := open_paren m buf parens
    let r1 := counted_serialize_expr_usize ops s.1 (buf + s.2) x (usize_succ depth)
    let o1 := s.2 + r1.2
    let m1 := store r1.1 (buf + o1) '^'.toUInt8
    let o2 := o1 + 1
    let r2 := counted_serialize_expr_usize ops m1 (buf + o2) y (usize_succ depth)
    close_paren r2.1 buf (o2 + r2.2) parens
  | .Power x y, depth =>
    let parens := parens_condition EXPR_POWER depth
    let s := open_paren m buf parens
    let r1 := counted_serialize_expr_usize ops s.1 (buf + s.2) x (usize_succ depth)
    let o1 := s.2 + r1.2
    let m1 := store r1.1 (buf + o1) '^'.toUInt8
    let o2 := o1 + 1
    let r2 := counted_serialize_expr_usize ops m1 (buf + o2) y (usize_succ depth)
    close_paren r2.1 buf (o2 + r2.2) parens
  | .Logarithm x y, depth =>
    let parens := parens_condition EXPR_LOGARITHM depth
    let s := open_paren m buf parens
    let m0 := memcpy s.1 (buf + s.2) (cstr "log(")
    let o0 := s.2 + (cstr "log(").length
    let r1 := counted_serialize_expr_usize ops m0 (buf + o0) x (usize_succ depth)
    let o1 := o0 + r1.2
    let m1 := store r1.1 (buf + o1) ','.toUInt8
    let o2 := o1 + 1
    let r2 := counted_serialize_expr_usize ops m1 (buf + o2) y (usize_succ depth)
    let o3 := o2 + r2.2
    let m3 := store r2.1 (buf + o3) ')'.toUInt8
    close_paren m3 buf (o3 + 1) parens
  | .Sin x, depth =>
    let parens := parens_condition EXPR_SIN depth
    let s := open_paren m buf parens
    let m0 := memcpy s.1 (buf + s.2) (cstr "sin(")
    let o0 := s.2 + (cstr "sin(").length
    let r1 := counted_serialize_expr_usize ops m0 (buf + o0) x (usize_succ depth)
    let o1 := o0 + r1.2
    let m1 := store r1.1 (buf + o1) ')'.toUInt8
    close_paren m1 buf (o1 + 1) parens
  | .Cos x, depth =>
    let parens := parens_condition EXPR_COS depth
    let s := open_paren m buf parens
    let m0 := memcpy s.1 (buf + s.2) (cstr "cos(")
    let o0 := s.2 + (cstr "cos(").length
    let r1 := counted_serialize_expr_usize ops m0 (buf + o0) x (usize_succ depth)
    let o1 := o0 + r1.2
    let m1 := store r1.1 (buf + o1) ')'.toUInt8
    close_paren m1 buf (o1 + 1) parens
  | .Tan x, depth =>
    let parens := parens_condition EXPR_TAN depth
    let s := open_paren m buf parens
    let m0 := memcpy s.1 (buf + s.2) (cstr "tan(")
    let o0 := s.2 + (cstr "tan(").length
    let r1 := counted_serialize_expr_usize ops m0 (buf + o0) x (usize_succ depth)
    let o1 := o0 + r1.2
    let m1 := store r1.1 (buf + o1) ')'.toUInt8
    close_paren m1 buf (o1 + 1) parens
  | .Negation x, depth =>
    let parens := parens_condition EXPR_NEGATION depth
    let s := open_paren m buf parens
    let m0 := store s.1 (buf + s.2) '-'.toUInt8
    let o0 := s.2 + 1
    let r1 := counted_serialize_expr_usize ops m0 (buf + o0) x (usize_succ depth)
    close_paren r1.1 buf (o0 + r1.2) parens
  | .Inverse x, depth =>
    let parens := parens_condition EXPR_INVERSE depth
    let s := open_paren m buf parens
    let r1 := counted_serialize_expr_usize ops s.1 (buf + s.2) x (usize_succ depth)
    let o1 := s.2 + r1.2
    let m1 := memcpy r1.1 (buf + o1) (cstr "⁻¹")
    close_paren m1 buf (o1 + (cstr "⁻¹").length) parens

/-! ## Notions used by the statements on single nodes -/

/-- What the call `counted_serialize_expr(buffer, e, depth)` leaves in a buffer
nothing was stored in: the cells `buffer[0 .. offset_written)`.  A child of a
node at depth `d` is rendered by this call at depth `d + 1`. -/
def counted_text {F : Type} (ops : FloatEnv F) (e : expr_t F) (depth : Nat) :
    List (Option UInt8) :=
  let w := counted_serialize_expr ops Mem.fresh 0 e depth
  w.1.read 0 w.2

/-- The node itself and all its descendants. -/
def nodes {F : Type} : expr_t F → List (expr_t F)
  | .Const c => [.Const c]
  | .Var v => [.Var v]
  | .Product x y => .Product x y :: (nodes x ++ nodes y)
  | .Quotient x y => .Quotient x y :: (nodes x ++ nodes y)
  | .Sum x y => .Sum x y :: (nodes x ++ nodes y)
  | .Difference x y => .Difference x y :: (nodes x ++ nodes y)
  | .Exponential x y => .Exponential x y :: (nodes x ++ nodes y)
  | .Logarithm x y => .Logarithm x y :: (nodes x ++ nodes y)
  | .Power x y => .Power x y :: (nodes x ++ nodes y)
  | .Sin x => .Sin x :: nodes x
  | .Cos x => .Cos x :: nodes x
  | .Tan x => .Tan x :: nodes x
  | .Negation x => .Negation x :: nodes x
  | .Inverse x => .Inverse x :: nodes x

/-! ## An environment to run the definitions on concrete trees -/

/-- The decimal digits of a natural number. -/
def decimal (n : Nat) : List UInt8 := (toString n).toList.map Char.toUInt8

/-- The text `"%.3g"` gives for a natural number a double holds exactly: the
number itself below 1000; from 1000 on the scientific form with the mantissa
rounded to three significant digits (ties to even), its trailing zeros dropped,
and an exponent of at least two digits. -/
def g3_nat (n : Nat) : List UInt8 :=
  if n < 1000 then decimal n
  else
    let k := (decimal n).length
    let unit := 10 ^ (k - 3)
    let q := n / unit
    let r := n % unit
    let m := if 2 * r > unit then q + 1 else if 2 * r < unit then q
      else if q % 2 = 0 then q else q + 1
    let x := if m = 1000 then k else k - 1
    let m := if m = 1000 then 100 else m
    let frac := m % 100
    decimal (m / 100)
      ++ (if frac = 0 then [] else '.'.toUInt8 :: decimal (frac / 10)
        ++ (if frac % 10 = 0 then [] else decimal (frac % 10)))
      ++ cstr "e+" ++ (if x < 10 then '0'.toUInt8 :: decimal x else decimal x)

/-- The text `"%.3g"` gives for an integer a double holds exactly. -/
def g3 (a : Int) : List UInt8 :=
  if a < 0 then '-'.toUInt8 :: g3_nat a.natAbs else g3_nat a.natAbs

/-- The integers as constants.  Sum, difference and product agree with IEEE
doubles as long as the operands and the result are integers a double holds
exactly, and `fmt` is the `"%.3g"` text of such an integer; these are the only
operations the concrete instances below compute with.  The other operations
are integer stand-ins that no statement relies on. -/
def intEnv : FloatEnv Int where
  add := fun a b => a + b
  sub := fun a b => a - b
  mul := fun a b => a * b
  div := fun a b => a / b
  pow := fun a b => a ^ b.toNat
  log := fun a => Int.ofNat (Nat.log 2 a.toNat)
  sin := fun _ => 0
  cos := fun _ => 1
  tan := fun _ => 0
  one := 1
  neg := fun a => -a
  fmt := g3

/-! ## Further notions of the statements -/

/-- The number of nodes of a tree. -/
def size {F : Type} : expr_t F → Nat
  | .Const _ | .Var _ => 1
  | .Product x y | .Quotient x y | .Sum x y | .Difference x y | .Exponential x y
  | .Logarithm x y | .Power x y => size x + size y + 1
  | .Sin x | .Cos x | .Tan x | .Negation x | .Inverse x => size x + 1

/-- The tree with every `Exponential` node turned into a `Power` node over the
same children. -/
def power_form {F : Type} : expr_t F → expr_t F
  | .Const c => .Const c
  | .Var v => .Var v
  | .Product x y => .Product (power_form x) (power_form y)
  | .Quotient x y => .Quotient (power_form x) (power_form y)
  | .Sum x y => .Sum (power_form x) (power_form y)
  | .Difference x y => .Difference (power_form x) (power_form y)
  | .Exponential x y => .Power (power_form x) (power_form y)
  | .Logarithm x y => .Logarithm (power_form x) (power_form y)
  | .Power x y => .Power (power_form x) (power_form y)
  | .Sin x => .Sin (power_form x)
  | .Cos x => .Cos (power_form x)
  | .Tan x => .Tan (power_form x)
  | .Negation x => .Negation (power_form x)
  | .Inverse x => .Inverse (power_form x)

/-- Whether folding the binary node `mk x y` over simplified children gives a
constant whose text is no longer than the measured size of the node over its
two constant operands (true when there is nothing to fold). -/
def fits2 {F : Type} (ops : FloatEnv F) (f : F → F → F)
    (mk : expr_t F → expr_t F → expr_t F) (x y : expr_t F) : Bool :=
  match x, y with
  | .Const a, .Const b =>
    decide ((ops.fmt (f a b)).length ≤ serialized_expr_size ops (mk (.Const a) (.Const b)))
  | _, _ => true

/-- Whether folding the unary node `mk x` over a simplified child gives a
constant whose text is no longer than the measured size of the node over its
constant operand (true when there is nothing to fold). -/
def fits1 {F : Type} (ops : FloatEnv F) (f : F → F) (mk : expr_t F → expr_t F)
    (x : expr_t F) : Bool :=
  match x with
  | .Const a => decide ((ops.fmt (f a)).length ≤ serialized_expr_size ops (mk (.Const a)))
  | _ => true

/-- Whether every constant `simplify` produces by a fold, anywhere in the tree,
has a text no longer than the measured size of the node it replaces. -/
def folds_fit {F : Type} (ops : FloatEnv F) : expr_t F → Bool
  | .Const _ | .Var _ => true
  | .Product x y => folds_fit ops x && folds_fit ops y
      && fits2 ops ops.mul .Product (simplify ops x) (simplify ops y)
  | .Quotient x y => folds_fit ops x && folds_fit ops y
      && fits2 ops ops.div .Quotient (simplify ops x) (simplify ops y)
  | .Sum x y => folds_fit ops x && folds_fit ops y
      && fits2 ops ops.add .Sum (simplify ops x) (simplify ops y)
  | .Difference x y => folds_fit ops x && folds_fit ops y
      && fits2 ops ops.sub .Difference (simplify ops x) (simplify ops y)
  | .Exponential x y => folds_fit ops x && folds_fit ops y
      && fits2 ops ops.pow .Exponential (simplify ops x) (simplify ops y)
  | .Logarithm x y => folds_fit ops x && folds_fit ops y
      && fits2 ops (fun b a => ops.div (ops.log a) (ops.log b)) .Logarithm
        (simplify ops x) (simplify ops y)
  | .Power x y => folds_fit ops x && folds_fit ops y
      && fits2 ops ops.pow .Power (simplify ops x) (simplify ops y)
  | .Sin x => folds_fit ops x && fits1 ops ops.sin .Sin (simplify ops x)
  | .Cos x => folds_fit ops x && fits1 ops ops.cos .Cos (simplify ops x)
  | .Tan x => folds_fit ops x && fits1 ops ops.tan .Tan (simplify ops x)
  | .Negation x => folds_fit ops x
  | .Inverse x => folds_fit ops x
      && fits1 ops (fun a => ops.div ops.one a) .Inverse (simplify ops x)

end Libseq

/-! # The earlier variant of the library, `src/expressions.h`

Ten kinds (no `Logarithm`, `Sin`, `Cos`, `Tan`); only the classification and the
simplifier are embedded.  `Exponential` and `Power` are folded with `powf`,
taken as a parameter next to the operations of `FloatEnv`. -/

namespace Libseq.Earlier

/-- The discriminant `expr_tag_t` of the earlier variant. -/
inductive expr_tag_t where
  | EXPR_CONSTANT
  | EXPR_VARIABLE
  | EXPR_PRODUCT
  | EXPR_QUOTIENT
  | EXPR_SUM
  | EXPR_DIFFERENCE
  | EXPR_EXPONENTIAL
  | EXPR_POWER
  | EXPR_NEGATION
  | EXPR_INVERSE
  deriving DecidableEq

/-- The node type `expr_t` of the earlier variant. -/
inductive expr_t (F : Type) where
  | Const (constant : F)
  | Var (name : UInt8)
  | Product (x y : expr_t F)
  | Quotient (x y : expr_t F)
  | Sum (x y : expr_t F)
  | Difference (x y : expr_t F)
  | Exponential (x y : expr_t F)
  | Power (x y : expr_t F)
  | Negation (e : expr_t F)
  | Inverse (e : expr_t F)
  deriving DecidableEq

open expr_tag_t

/-- The field `e->variant`. -/
def expr_t.variant {F : Type} : expr_t F → expr_tag_t
  | .Const _ => EXPR_CONSTANT
  | .Var _ => EXPR_VARIABLE
  | .Product _ _ => EXPR_PRODUCT
  | .Quotient _ _ => EXPR_QUOTIENT
  | .Sum _ _ => EXPR_SUM
  | .Difference _ _ => EXPR_DIFFERENCE
  | .Exponential _ _ => EXPR_EXPONENTIAL
  | .Power _ _ => EXPR_POWER
  | .Negation _ => EXPR_NEGATION
  | .Inverse _ => EXPR_INVERSE

/-- The query `is_simplifiable` of the earlier variant: `Negation` shares the
case of `Inverse`. -/
def is_simplifiable {F : Type} : expr_t F → Bool
  | .Const _ | .Var _ => false
  | .Product x y | .Quotient x y | .Sum x y | .Difference x y | .Power x y
  | .Exponential x y =>
    let x_variant := x.variant
    let y_variant := y.variant
    if x_variant == EXPR_CONSTANT && y_variant == EXPR_CONSTANT then true
    else is_simplifiable x || is_simplifiable y
  | .Negation x | .Inverse x =>
    if x.variant == EXPR_CONSTANT then true
    else is_simplifiable x

/-- The procedure `simplify` of the earlier variant, bounded by the number
`fuel` of nested activations allowed, as `Libseq.simplify_fuel`; `none` means
the bound was reached before the call returned. -/
def simplify_fuel {F : Type} (ops : FloatEnv F) (powf : F → F → F) :
    Nat → expr_t F → Option (expr_t F)
  | 0, _ => none
  | _ + 1, .Const c => some (.Const c)
  | _ + 1, .Var v => some (.Var v)
  | fuel + 1, .Product x y =>
    match x, y with
    | .Const xc, .Const yc => some (.Const (ops.mul xc yc))
    | _, _ =>
      match simplify_fuel ops powf fuel x with
      | none => none
      | some x =>
        match simplify_fuel ops powf fuel y with
        | none => none
        | some y =>
          let product := expr_t.Product x y
          if is_simplifiable product then simplify_fuel ops powf fuel product
          else some product
  | fuel + 1, .Quotient x y =>
    match x, y with
    | .Const xc, .Const yc => some (.Const (ops.div xc yc))
    | _, _ =>
      match simplify_fuel ops powf fuel x with
      | none => none
      | some x =>
        match simplify_fuel ops powf fuel y with
        | none => none
        | some y =>
          let quotient := expr_t.Quotient x y
          if is_simplifiable quotient then simplify_fuel ops powf fuel quotient
          else some quotient
  | fuel + 1, .Sum x y =>
    match x, y with
    | .Const xc, .Const yc => some (.Const (ops.add xc yc))
    | _, _ =>
      match simplify_fuel ops powf fuel x with
      | none => none
      | some x =>
        match simplify_fuel ops powf fuel y with
        | none => none
        | some y =>
          let sum := expr_t.Sum x y
          if is_simplifiable sum then simplify_fuel ops powf fuel sum
          else some sum
  | fuel + 1, .Difference x y =>
    match x, y with
    | .Const xc, .Const yc => some (.Const (ops.sub xc yc))
    | _, _ =>
      match simplify_fuel ops powf fuel x with
      | none => none
      | some x =>
        match simplify_fuel ops powf fuel y with
        | none => none
        | some y =>
          let difference := expr_t.Difference x y
          if is_simplifiable difference then simplify_fuel ops powf fuel difference
          else some difference
  | fuel + 1, .Exponential x y =>
    match x, y with
    | .Const xc, .Const yc => some (.Const (powf xc yc))
    | _, _ =>
      match simplify_fuel ops powf fuel x with
      | none => none
      | some x =>
        match simplify_fuel ops powf fuel y with
        | none => none
        | some y =>
          let exponential := expr_t.Exponential x y
          if is_simplifiable exponential then simplify_fuel ops powf fuel exponential
          else some exponential
  | fuel + 1, .Power x y =>
    match x, y with
    | .Const xc, .Const yc => some (.Const (powf xc yc))
    | _, _ =>
      match simplify_fuel ops powf fuel x with
      | none => none
      | some x =>
        match simplify_fuel ops powf fuel y with
        | none => none
        | some y =>
          let power := expr_t.Power x y
          if is_simplifiable power then simplify_fuel ops powf fuel power
          else some power
  | fuel + 1, .Negation x =>
    match simplify_fuel ops powf fuel x with
    | none => none
    | some x =>
      let negation := expr_t.Negation x
      if is_simplifiable negation then simplify_fuel ops powf fuel negation
      else some negation
  | fuel + 1, .Inverse x =>
    match x with
    | .Const xc => some (.Const (ops.div ops.one xc))
    | _ =>
      match simplify_fuel ops powf fuel x with
      | none => none
      | some x =>
        let inverse := expr_t.Inverse x
        if is_simplifiable inverse then simplify_fuel ops powf fuel inverse
        else some inverse

end Libseq.Earlier


/-! # Theorems -/

namespace Libseq

open expr_tag_t

/-! ## The output buffer -/

theorem store_store (m : Mem) (q : Nat) (a b : UInt8) : store (store m q a) q b = store m q b := by
  funext j
  simp only [store]
  split <;> rfl

theorem memcpy_append (m : Mem) (p : Nat) (s t : List UInt8) :
    memcpy (memcpy m p s) (p + s.length) t = memcpy m p (s ++ t) := by
  induction s generalizing m p with
  | nil => simp [memcpy]
  | cons b s ih =>
    have h := ih (store m p b) (p + 1)
    rw [show p + 1 + s.length = p + (b :: s).length by simp; omega] at h
    exact h

theorem memcpy_lt (m : Mem) (p : Nat) (s : List UInt8) (j : Nat) (h : j < p) :
    memcpy m p s j = m j := by
  induction s generalizing m p with
  | nil => rfl
  | cons b s ih =>
    simp only [memcpy]
    rw [ih _ _ (by omega)]
    simp only [store]
    rw [if_neg (by omega)]

theorem memcpy_ge (m : Mem) (p : Nat) (s : List UInt8) (j : Nat) (h : p + s.length ≤ j) :
    memcpy m p s j = m j := by
  induction s generalizing m p with
  | nil => rfl
  | cons b s ih =>
    simp only [List.length_cons] at h
    simp only [memcpy]
    rw [ih _ _ (by omega)]
    simp only [store]
    rw [if_neg (by omega)]

theorem memcpy_mid (m : Mem) (p : Nat) (s : List UInt8) (i : Nat) (h : i < s.length) :
    memcpy m p s (p + i) = s[i]? := by
  induction s generalizing m p i with
  | nil => simp at h
  | cons b s ih =>
    simp only [memcpy]
    cases i with
    | zero =>
      rw [memcpy_lt _ _ _ _ (by omega)]
      simp [store]
    | succ i =>
      simp only [List.length_cons] at h
      have := ih (store m p b) (p + 1) i (by omega)
      rw [show p + (i + 1) = p + 1 + i by omega, this]
      simp

theorem put_store (m : Mem) (p q : Nat) (s : List UInt8) (n : Bool) (b : UInt8)
    (hq : q = p + s.length) : store (put m p s n) q b = put m p (s ++ [b]) false := by
  subst hq
  have h : store (memcpy m p s) (p + s.length) b = memcpy m p (s ++ [b]) := by
    rw [← memcpy_append]; rfl
  cases n
  · simpa [put] using h
  · simp only [put, sprintf, if_true, store_store]
    simpa using h

theorem put_memcpy (m : Mem) (p q : Nat) (s t : List UInt8) (n : Bool)
    (hq : q = p + s.length) (ht : t ≠ []) :
    memcpy (put m p s n) q t = put m p (s ++ t) false := by
  subst hq
  cases n
  · simp [put, memcpy_append]
  · cases t with
    | nil => exact absurd rfl ht
    | cons b t =>
      simp only [put, sprintf, if_true, memcpy, store_store]
      have h : memcpy (store (memcpy m p s) (p + s.length) b) (p + s.length + 1) t
          = memcpy (memcpy m p s) (p + s.length) (b :: t) := rfl
      rw [h, memcpy_append]
      simp

theorem put_put (m : Mem) (p q : Nat) (s t : List UInt8) (n1 n2 : Bool)
    (hq : q = p + s.length) (ht : t = [] → n2 = true) :
    put (put m p s n1) q t n2 = put m p (s ++ t) n2 := by
  cases n2
  · have ht2 : t ≠ [] := fun h => by simpa using ht h
    simpa [put] using put_memcpy m p q s t n1 hq ht2
  · by_cases h : t = []
    · subst h
      subst hq
      cases n1 <;> simp [put, sprintf, memcpy, store_store]
    · have h1 := put_memcpy m p q s t n1 hq h
      have h2 : put (put m p s n1) q t true
          = store (memcpy (put m p s n1) q t) (q + t.length) 0 := by
        simp [put, sprintf]
      rw [h2, h1]
      subst hq
      simp [put, sprintf, Nat.add_assoc]

theorem Wrote.open_paren (m : Mem) (buf : Nat) (parens : Bool) :
    Wrote m buf (open_paren m buf parens) (if parens then ['('.toUInt8] else []) false := by
  cases parens <;> simp [Wrote, Libseq.open_paren, put, memcpy]

theorem Wrote.store {m : Mem} {buf : Nat} {st : Mem × Nat} {s : List UInt8} {n : Bool}
    (h : Wrote m buf st s n) (b : UInt8) :
    Wrote m buf (store st.1 (buf + st.2) b, st.2 + 1) (s ++ [b]) false := by
  obtain ⟨h1, h2⟩ := h
  refine ⟨?_, by simp [h2]⟩
  show Libseq.store st.1 (buf + st.2) b = _
  rw [h1, put_store _ _ _ _ _ _ (by rw [h2])]

theorem Wrote.memcpy {m : Mem} {buf : Nat} {st : Mem × Nat} {s : List UInt8} {n : Bool}
    (h : Wrote m buf st s n) (t : List UInt8) (ht : t ≠ []) :
    Wrote m buf (memcpy st.1 (buf + st.2) t, st.2 + t.length) (s ++ t) false := by
  obtain ⟨h1, h2⟩ := h
  refine ⟨?_, by simp [h2]⟩
  show Libseq.memcpy st.1 (buf + st.2) t = _
  rw [h1, put_memcpy _ _ _ _ _ _ (by rw [h2]) ht]

theorem Wrote.sprintf {m : Mem} {buf : Nat} {st : Mem × Nat} {s : List UInt8} {n : Bool}
    (h : Wrote m buf st s n) (t : List UInt8) :
    Wrote m buf (sprintf st.1 (buf + st.2) t, st.2 + t.length) (s ++ t) true := by
  obtain ⟨h1, h2⟩ := h
  refine ⟨?_, by simp [h2]⟩
  show Libseq.sprintf st.1 (buf + st.2) t = _
  have := put_put m buf (buf + st.2) s t n true (by rw [h2]) (fun _ => rfl)
  rw [h1]
  simpa [put] using this

theorem Wrote.child {m : Mem} {buf : Nat} {st : Mem × Nat} {s : List UInt8} {n : Bool}
    (h : Wrote m buf st s n) (r : Mem × Nat) (t : List UInt8) (nt : Bool)
    (hr : r = (put st.1 (buf + st.2) t nt, t.length)) (ht : t = [] → nt = true) :
    Wrote m buf (r.1, st.2 + r.2) (s ++ t) nt := by
  obtain ⟨h1, h2⟩ := h
  subst hr
  refine ⟨?_, by simp [h2]⟩
  show put st.1 (buf + st.2) t nt = _
  rw [h1, put_put _ _ _ _ _ _ _ (by rw [h2]) ht]

theorem Wrote.close_paren {m : Mem} {buf : Nat} {st : Mem × Nat} {s : List UInt8} {n : Bool}
    (h : Wrote m buf st s n) (parens : Bool) :
    Wrote m buf (close_paren st.1 buf st.2 parens)
      (if parens then s ++ [')'.toUInt8] else s) (!parens && n) := by
  cases parens
  · simpa [Libseq.close_paren] using h
  · simpa [Libseq.close_paren] using h.store ')'.toUInt8

theorem Wrote.final {m : Mem} {buf : Nat} {st : Mem × Nat} {s s' : List UInt8} {n n' : Bool}
    (h : Wrote m buf st s n) (hs : s = s') (hn : n = n') :
    st = (put m buf s' n', s'.length) := by
  subst hs hn
  exact Prod.ext h.1 h.2

/-! ## Serializer: both passes against the closed form -/

theorem rendering_nil {F : Type} (ops : FloatEnv F) (e : expr_t F) (d : Nat) :
    rendering ops e d = [] → trailing_nul e d = true := by
  induction e generalizing d with
  | Const c => intro _; rfl
  | Var v => intro _; rfl
  | Product x y ihx ihy =>
    simp only [rendering, trailing_nul]
    split
    · intro h; exact ihy _ (List.append_eq_nil.mp h).2
    · split
      · intro h; exact ihx _ (List.append_eq_nil.mp h).2
      · intro h; simp at h
  | Quotient x y | Sum x y | Difference x y | Exponential x y | Power x y =>
    intro h
    simp only [rendering, wrap] at h
    split at h <;> simp at h
  | Logarithm x y => intro h; simp [rendering] at h
  | Sin x | Cos x | Tan x => intro h; simp [rendering] at h
  | Negation x =>
    intro h
    simp only [rendering, wrap] at h
    split at h <;> simp at h
  | Inverse x =>
    intro h
    simp only [rendering, wrap] at h
    have : cstr "⁻¹" ≠ [] := by decide
    split at h <;> simp [this] at h

theorem counted_serialize_expr_eq {F : Type} (ops : FloatEnv F) (e : expr_t F) :
    ∀ (m : Mem) (buf d : Nat), counted_serialize_expr ops m buf e d
      = (put m buf (rendering ops e d) (trailing_nul e d), (rendering ops e d).length) := by
  induction e with
  | Const c =>
    intro m buf d
    have h := (((Wrote.open_paren m buf (parens_condition EXPR_CONSTANT d)).sprintf
      (ops.fmt c))).close_paren (parens_condition EXPR_CONSTANT d)
    rw [counted_serialize_expr]
    refine h.final ?_ ?_ <;> simp [rendering, trailing_nul, parens_condition]
  | Var v =>
    intro m buf d
    have h := (((Wrote.open_paren m buf (parens_condition EXPR_VARIABLE d)).sprintf
      [v])).close_paren (parens_condition EXPR_VARIABLE d)
    rw [counted_serialize_expr]
    refine h.final ?_ ?_ <;> simp [rendering, trailing_nul, parens_condition]
  | Product x y ihx ihy =>
    intro m buf d
    rw [counted_serialize_expr]
    simp only [rendering, trailing_nul]
    split
    · have h := (((Wrote.open_paren m buf (parens_condition EXPR_PRODUCT d)).child _ _ _
        (ihx _ _ (d + 1)) (rendering_nil ops x (d + 1))).child _ _ _
        (ihy _ _ (d + 1)) (rendering_nil ops y (d + 1))).close_paren
        (parens_condition EXPR_PRODUCT d)
      refine h.final ?_ ?_ <;> simp [parens_condition]
    · split
      · have h := (((Wrote.open_paren m buf (parens_condition EXPR_PRODUCT d)).child _ _ _
          (ihy _ _ (d + 1)) (rendering_nil ops y (d + 1))).child _ _ _
          (ihx _ _ (d + 1)) (rendering_nil ops x (d + 1))).close_paren
          (parens_condition EXPR_PRODUCT d)
        refine h.final ?_ ?_ <;> simp [parens_condition]
      · have h := ((((Wrote.open_paren m buf (parens_condition EXPR_PRODUCT d)).child _ _ _
          (ihx _ _ (d + 1)) (rendering_nil ops x (d + 1))).store '*'.toUInt8).child _ _ _
          (ihy _ _ (d + 1)) (rendering_nil ops y (d + 1))).close_paren
          (parens_condition EXPR_PRODUCT d)
        refine h.final ?_ ?_ <;> simp [parens_condition]
  | Quotient x y ihx ihy =>
    intro m buf d
    have h := ((((Wrote.open_paren m buf (parens_condition EXPR_QUOTIENT d)).child _ _ _
      (ihx _ _ (d + 1)) (rendering_nil ops x (d + 1))).store '/'.toUInt8).child _ _ _
      (ihy _ _ (d + 1)) (rendering_nil ops y (d + 1))).close_paren (parens_condition EXPR_QUOTIENT d)
    rw [counted_serialize_expr]
    refine h.final ?_ ?_ <;> cases hd : decide (d > 0) <;>
      simp [rendering, trailing_nul, wrap, parens_condition, hd]
  | Sum x y ihx ihy =>
    intro m buf d
    have h := ((((Wrote.open_paren m buf (parens_condition EXPR_SUM d)).child _ _ _
      (ihx _ _ (d + 1)) (rendering_nil ops x (d + 1))).store '+'.toUInt8).child _ _ _
      (ihy _ _ (d + 1)) (rendering_nil ops y (d + 1))).close_paren (parens_condition EXPR_SUM d)
    rw [counted_serialize_expr]
    refine h.final ?_ ?_ <;> cases hd : decide (d > 0) <;>
      simp [rendering, trailing_nul, wrap, parens_condition, hd]
  | Difference x y ihx ihy =>
    intro m buf d
    have h := ((((Wrote.open_paren m buf (parens_condition EXPR_DIFFERENCE d)).child _ _ _
      (ihx _ _ (d + 1)) (rendering_nil ops x (d + 1))).store '-'.toUInt8).child _ _ _
      (ihy _ _ (d + 1)) (rendering_nil ops y (d + 1))).close_paren (parens_condition EXPR_DIFFERENCE d)
    rw [counted_serialize_expr]
    refine h.final ?_ ?_ <;> cases hd : decide (d > 0) <;>
      simp [rendering, trailing_nul, wrap, parens_condition, hd]
  | Exponential x y ihx ihy =>
    intro m buf d
    have h := ((((Wrote.open_paren m buf (parens_condition EXPR_EXPONENTIAL d)).child _ _ _
      (ihx _ _ (d + 1)) (rendering_nil ops x (d + 1))).store '^'.toUInt8).child _ _ _
      (ihy _ _ (d + 1)) (rendering_nil ops y (d + 1))).close_paren (parens_condition EXPR_EXPONENTIAL d)
    rw [counted_serialize_expr]
    refine h.final ?_ ?_ <;> cases hd : decide (d > 0) <;>
      simp [rendering, trailing_nul, wrap, parens_condition, hd]
  | Logarithm x y ihx ihy =>
    intro m buf d
    have h := ((((((Wrote.open_paren m buf (parens_condition EXPR_LOGARITHM d)).memcpy
      (cstr "log(") (by decide)).child _ _ _ (ihx _ _ (d + 1))
      (rendering_nil ops x (d + 1))).store ','.toUInt8).child _ _ _ (ihy _ _ (d + 1))
      (rendering_nil ops y (d + 1))).store ')'.toUInt8).close_paren
      (parens_condition EXPR_LOGARITHM d)
    rw [counted_serialize_expr]
    refine h.final ?_ ?_ <;> simp [rendering, trailing_nul, parens_condition]
  | Power x y ihx ihy =>
    intro m buf d
    have h := ((((Wrote.open_paren m buf (parens_condition EXPR_POWER d)).child _ _ _
      (ihx _ _ (d + 1)) (rendering_nil ops x (d + 1))).store '^'.toUInt8).child _ _ _
      (ihy _ _ (d + 1)) (rendering_nil ops y (d + 1))).close_paren (parens_condition EXPR_POWER d)
    rw [counted_serialize_expr]
    refine h.final ?_ ?_ <;> cases hd : decide (d > 0) <;>
      simp [rendering, trailing_nul, wrap, parens_condition, hd]
  | Sin x ihx =>
    intro m buf d
    have h := (((((Wrote.open_paren m buf (parens_condition EXPR_SIN d)).memcpy (cstr "sin(")
      (by decide)).child _ _ _ (ihx _ _ (d + 1)) (rendering_nil ops x (d + 1))).store
      ')'.toUInt8)).close_paren (parens_condition EXPR_SIN d)
    rw [counted_serialize_expr]
    refine h.final ?_ ?_ <;> simp [rendering, trailing_nul, parens_condition]
  | Cos x ihx =>
    intro m buf d
    have h := (((((Wrote.open_paren m buf (parens_condition EXPR_COS d)).memcpy (cstr "cos(")
      (by decide)).child _ _ _ (ihx _ _ (d + 1)) (rendering_nil ops x (d + 1))).store
      ')'.toUInt8)).close_paren (parens_condition EXPR_COS d)
    rw [counted_serialize_expr]
    refine h.final ?_ ?_ <;> simp [rendering, trailing_nul, parens_condition]
  | Tan x ihx =>
    intro m buf d
    have h := (((((Wrote.open_paren m buf (parens_condition EXPR_TAN d)).memcpy (cstr "tan(")
      (by decide)).child _ _ _ (ihx _ _ (d + 1)) (rendering_nil ops x (d + 1))).store
      ')'.toUInt8)).close_paren (parens_condition EXPR_TAN d)
    rw [counted_serialize_expr]
    refine h.final ?_ ?_ <;> simp [rendering, trailing_nul, parens_condition]
  | Negation x ihx =>
    intro m buf d
    have h := ((((Wrote.open_paren m buf (parens_condition EXPR_NEGATION d)).store
      '-'.toUInt8).child _ _ _ (ihx _ _ (d + 1)) (rendering_nil ops x (d + 1)))).close_paren
      (parens_condition EXPR_NEGATION d)
    rw [counted_serialize_expr]
    refine h.final ?_ ?_ <;> cases hd : decide (d > 0) <;>
      simp [rendering, trailing_nul, wrap, parens_condition, hd]
  | Inverse x ihx =>
    intro m buf d
    have h := ((((Wrote.open_paren m buf (parens_condition EXPR_INVERSE d)).child _ _ _
      (ihx _ _ (d + 1)) (rendering_nil ops x (d + 1))).memcpy (cstr "⁻¹")
      (by decide))).close_paren (parens_condition EXPR_INVERSE d)
    rw [counted_serialize_expr]
    refine h.final ?_ ?_ <;> cases hd : decide (d > 0) <;>
      simp [rendering, trailing_nul, wrap, parens_condition, hd]

theorem count_serialized_expr_size_eq {F : Type} (ops : FloatEnv F) (e : expr_t F) :
    ∀ d : Nat, count_serialized_expr_size ops e d = (rendering ops e d).length := by
  induction e with
  | Const c => intro d; simp [count_serialized_expr_size, rendering, parens_condition, snprintf0]
  | Var v => intro d; simp [count_serialized_expr_size, rendering, parens_condition]
  | Product x y ihx ihy =>
    intro d
    simp only [count_serialized_expr_size, rendering, ihx, ihy]
    split
    · simp [parens_condition]
    · split
      · simp [parens_condition]
      · simp [parens_condition]
        omega
  | Quotient x y ihx ihy | Sum x y ihx ihy | Difference x y ihx ihy
  | Exponential x y ihx ihy | Power x y ihx ihy =>
    intro d
    simp only [count_serialized_expr_size, rendering, ihx, ihy]
    cases hd : decide (d > 0) <;> simp [wrap, parens_condition, hd] <;> omega
  | Logarithm x y ihx ihy =>
    intro d
    simp only [count_serialized_expr_size, rendering, ihx, ihy]
    have : (cstr "log(").length = 4 := by decide
    simp [parens_condition, this]
    omega
  | Sin x ihx | Cos x ihx | Tan x ihx =>
    intro d
    simp only [count_serialized_expr_size, rendering, ihx]
    have h1 : (cstr "sin(").length = 4 := by decide
    have h2 : (cstr "cos(").length = 4 := by decide
    have h3 : (cstr "tan(").length = 4 := by decide
    simp [parens_condition, h1, h2, h3]
    omega
  | Negation x ihx =>
    intro d
    simp only [count_serialized_expr_size, rendering, ihx]
    cases hd : decide (d > 0) <;> simp [wrap, parens_condition, hd] <;> omega
  | Inverse x ihx =>
    intro d
    simp only [count_serialized_expr_size, rendering, ihx]
    cases hd : decide (d > 0)
    · simp [wrap, parens_condition, hd]
    · simp [wrap, parens_condition, hd]
      omega

theorem put_apply (m : Mem) (p : Nat) (s : List UInt8) (n : Bool) (i : Nat) :
    put m p s n i =
      if i < p then m i
      else if i < p + s.length then s[i - p]?
      else if i = p + s.length ∧ n = true then some 0
      else m i := by
  by_cases h1 : i < p
  · rw [if_pos h1]
    cases n
    · simpa [put] using memcpy_lt m p s i h1
    · simp only [put, sprintf, if_true, store]
      rw [if_neg (by omega)]
      exact memcpy_lt m p s i h1
  · rw [if_neg h1]
    by_cases h2 : i < p + s.length
    · rw [if_pos h2]
      have h3 := memcpy_mid m p s (i - p) (by omega)
      rw [show p + (i - p) = i by omega] at h3
      cases n
      · simpa [put] using h3
      · simp only [put, sprintf, if_true, store]
        rw [if_neg (by omega)]
        exact h3
    · rw [if_neg h2]
      have h3 := memcpy_ge m p s i (by omega)
      cases n
      · simpa [put] using h3
      · simp only [put, sprintf, if_true, store]
        by_cases h4 : i = p + s.length
        · simp [h4]
        · simp [h4, h3]

/-- The memory `serialize_expr` leaves, cell by cell: the text of the
expression from `buffer` on, a zero byte behind it when the last thing stored
was the terminator of a `sprintf`, every other cell as before; and the count
it returns. -/
theorem serialize_expr_eq {F : Type} (ops : FloatEnv F) (m : Mem) (buffer : Nat)
    (e : expr_t F) :
    (serialize_expr ops m buffer e).2 = (rendering ops e 0).length ∧
    ∀ i, (serialize_expr ops m buffer e).1 i =
      if i < buffer then m i
      else if i < buffer + (rendering ops e 0).length then (rendering ops e 0)[i - buffer]?
      else if i = buffer + (rendering ops e 0).length ∧ trailing_nul e 0 = true then some 0
      else m i := by
  simp only [serialize_expr, counted_serialize_expr_eq]
  exact ⟨trivial, fun i => put_apply _ _ _ _ i⟩

/-! ## Simplifier: the fuel-bounded procedure against the closed form -/

theorem variant_eq_constant {F : Type} (x : expr_t F) :
    (x.variant == EXPR_CONSTANT) = true ↔ ∃ c, x = .Const c := by
  cases x <;> simp [expr_t.variant]

theorem height_pos {F : Type} (e : expr_t F) : 1 ≤ height e := by
  cases e <;> simp [height]

theorem fold2_of_not_const {F : Type} (f : F → F → F) (mk : expr_t F → expr_t F → expr_t F)
    (x y : expr_t F)
    (h : (x.variant == EXPR_CONSTANT && y.variant == EXPR_CONSTANT) = false) :
    fold2 f mk x y = mk x y := by
  unfold fold2
  split
  · simp [expr_t.variant] at h
  · rfl

theorem fold1_of_not_const {F : Type} (f : F → F) (mk : expr_t F → expr_t F) (x : expr_t F)
    (h : (x.variant == EXPR_CONSTANT) = false) : fold1 f mk x = mk x := by
  unfold fold1
  split
  · simp [expr_t.variant] at h
  · rfl

/-- A binary node is reported simplifiable exactly when both children are
constants or one of them is simplifiable. -/
theorem is_simplifiable_binary_iff {F : Type} (mk : expr_t F → expr_t F → expr_t F)
    (x y : expr_t F)
    (hmk : mk = .Product ∨ mk = .Quotient ∨ mk = .Sum ∨ mk = .Difference
      ∨ mk = .Exponential ∨ mk = .Logarithm ∨ mk = .Power) :
    is_simplifiable (mk x y) =
      ((x.variant == EXPR_CONSTANT && y.variant == EXPR_CONSTANT)
        || (is_simplifiable x || is_simplifiable y)) := by
  rcases hmk with h | h | h | h | h | h | h <;> subst h <;> rw [is_simplifiable] <;>
    cases (x.variant == EXPR_CONSTANT && y.variant == EXPR_CONSTANT) <;> simp

/-- A `Sin`, `Cos`, `Tan` or `Inverse` node is reported simplifiable exactly
when its child is a constant or is simplifiable. -/
theorem is_simplifiable_unary_iff {F : Type} (mk : expr_t F → expr_t F)
    (x : expr_t F)
    (hmk : mk = .Sin ∨ mk = .Cos ∨ mk = .Tan ∨ mk = .Inverse) :
    is_simplifiable (mk x) = ((x.variant == EXPR_CONSTANT) || is_simplifiable x) := by
  rcases hmk with h | h | h | h <;> subst h <;> rw [is_simplifiable] <;>
    cases (x.variant == EXPR_CONSTANT) <;> simp

theorem is_simplifiable_fold2 {F : Type} (f : F → F → F) (mk : expr_t F → expr_t F → expr_t F)
    (hmk : ∀ x y, is_simplifiable (mk x y) =
      ((x.variant == EXPR_CONSTANT && y.variant == EXPR_CONSTANT)
        || (is_simplifiable x || is_simplifiable y)))
    {x y : expr_t F} (hx : is_simplifiable x = false) (hy : is_simplifiable y = false) :
    is_simplifiable (fold2 f mk x y) = false := by
  cases hc : (x.variant == EXPR_CONSTANT && y.variant == EXPR_CONSTANT)
  · rw [fold2_of_not_const f mk x y hc, hmk, hc, hx, hy]
    rfl
  · rw [Bool.and_eq_true, variant_eq_constant, variant_eq_constant] at hc
    obtain ⟨⟨a, rfl⟩, ⟨b, rfl⟩⟩ := hc
    rfl

theorem is_simplifiable_fold1 {F : Type} (f : F → F) (mk : expr_t F → expr_t F)
    (hmk : ∀ x, is_simplifiable (mk x) = ((x.variant == EXPR_CONSTANT) || is_simplifiable x))
    {x : expr_t F} (hx : is_simplifiable x = false) :
    is_simplifiable (fold1 f mk x) = false := by
  cases hc : (x.variant == EXPR_CONSTANT)
  · rw [fold1_of_not_const f mk x hc, hmk, hc, hx]
    rfl
  · rw [variant_eq_constant] at hc
    obtain ⟨a, rfl⟩ := hc
    rfl

/-- The closed form leaves nothing `is_simplifiable` reports. -/
theorem is_simplifiable_bottom_up {F : Type} (ops : FloatEnv F) (e : expr_t F) :
    is_simplifiable (bottom_up ops e) = false := by
  induction e with
  | Const c => rfl
  | Var v => rfl
  | Product x y ihx ihy | Quotient x y ihx ihy | Sum x y ihx ihy | Difference x y ihx ihy
  | Exponential x y ihx ihy | Logarithm x y ihx ihy | Power x y ihx ihy =>
    exact is_simplifiable_fold2 _ _ (fun x y => is_simplifiable_binary_iff _ x y (by simp))
      ihx ihy
  | Sin x ihx | Cos x ihx | Tan x ihx | Inverse x ihx =>
    exact is_simplifiable_fold1 _ _ (fun x => is_simplifiable_unary_iff _ x (by simp)) ihx
  | Negation x ihx =>
    rw [bottom_up, is_simplifiable, ihx]
    simp

/-- The step after the children of a binary node were simplified: the rebuilt
node is passed to `simplify` again exactly when both children are constants,
and that call folds it at once. -/
theorem rebuild2 {F : Type} (ops : FloatEnv F) (k : Nat) (hk : 1 ≤ k)
    (f : F → F → F) (mk : expr_t F → expr_t F → expr_t F)
    (hmk : ∀ x y, is_simplifiable (mk x y) =
      ((x.variant == EXPR_CONSTANT && y.variant == EXPR_CONSTANT)
        || (is_simplifiable x || is_simplifiable y)))
    (hfold : ∀ k a b, simplify_fuel ops (k + 1) (mk (.Const a) (.Const b))
      = some (.Const (f a b)))
    {x y : expr_t F} (hx : is_simplifiable x = false) (hy : is_simplifiable y = false) :
    (if is_simplifiable (mk x y) = true then simplify_fuel ops k (mk x y) else some (mk x y))
      = some (fold2 f mk x y) := by
  obtain ⟨j, rfl⟩ : ∃ j, k = j + 1 := ⟨k - 1, by omega⟩
  cases hc : (x.variant == EXPR_CONSTANT && y.variant == EXPR_CONSTANT)
  · rw [fold2_of_not_const f mk x y hc, hmk, hc, hx, hy]
    rfl
  · rw [hmk, hc]
    rw [Bool.and_eq_true, variant_eq_constant, variant_eq_constant] at hc
    obtain ⟨⟨a, rfl⟩, ⟨b, rfl⟩⟩ := hc
    simpa [fold2] using hfold j a b

/-- The step after the child of a `Sin`, `Cos`, `Tan` or `Inverse` node was
simplified, as `rebuild2`. -/
theorem rebuild1 {F : Type} (ops : FloatEnv F) (k : Nat) (hk : 1 ≤ k)
    (f : F → F) (mk : expr_t F → expr_t F)
    (hmk : ∀ x, is_simplifiable (mk x) = ((x.variant == EXPR_CONSTANT) || is_simplifiable x))
    (hfold : ∀ k a, simplify_fuel ops (k + 1) (mk (.Const a)) = some (.Const (f a)))
    {x : expr_t F} (hx : is_simplifiable x = false) :
    (if is_simplifiable (mk x) = true then simplify_fuel ops k (mk x) else some (mk x))
      = some (fold1 f mk x) := by
  obtain ⟨j, rfl⟩ : ∃ j, k = j + 1 := ⟨k - 1, by omega⟩
  cases hc : (x.variant == EXPR_CONSTANT)
  · rw [fold1_of_not_const f mk x hc, hmk, hc, hx]
    rfl
  · rw [hmk, hc]
    rw [variant_eq_constant] at hc
    obtain ⟨a, rfl⟩ := hc
    simpa [fold1] using hfold j a

/-- With `height e` nested activations or more, `simplify` returns, and the tree
it leaves is the closed form. -/
theorem simplify_fuel_eq_bottom_up {F : Type} (ops : FloatEnv F) (e : expr_t F) :
    ∀ fuel, height e ≤ fuel → simplify_fuel ops fuel e = some (bottom_up ops e) := by
  induction e with
  | Const c =>
    intro fuel hf
    obtain ⟨k, rfl⟩ : ∃ k, fuel = k + 1 := ⟨fuel - 1, by simp [height] at hf; omega⟩
    rfl
  | Var v =>
    intro fuel hf
    obtain ⟨k, rfl⟩ : ∃ k, fuel = k + 1 := ⟨fuel - 1, by simp [height] at hf; omega⟩
    rfl
  | Product x y ihx ihy =>
    intro fuel hf
    simp only [height] at hf
    obtain ⟨k, rfl⟩ : ∃ k, fuel = k + 1 := ⟨fuel - 1, by omega⟩
    have hk : 1 ≤ k := by have := height_pos x; omega
    by_cases hc : ∃ a b, x = .Const a ∧ y = .Const b
    · obtain ⟨a, b, rfl, rfl⟩ := hc
      rfl
    · rw [simplify_fuel]
      · rw [ihx k (by omega), ihy k (by omega)]
        exact rebuild2 ops k hk (ops.mul) .Product
          (fun x y => is_simplifiable_binary_iff _ x y (by simp))
          (by intro k a b; simp [simplify_fuel])
          (is_simplifiable_bottom_up ops x) (is_simplifiable_bottom_up ops y)
      · exact fun a b ha hb => hc ⟨a, b, ha, hb⟩
  | Quotient x y ihx ihy =>
    intro fuel hf
    simp only [height] at hf
    obtain ⟨k, rfl⟩ : ∃ k, fuel = k + 1 := ⟨fuel - 1, by omega⟩
    have hk : 1 ≤ k := by have := height_pos x; omega
    by_cases hc : ∃ a b, x = .Const a ∧ y = .Const b
    · obtain ⟨a, b, rfl, rfl⟩ := hc
      rfl
    · rw [simplify_fuel]
      · rw [ihx k (by omega), ihy k (by omega)]
        exact rebuild2 ops k hk (ops.div) .Quotient
          (fun x y => is_simplifiable_binary_iff _ x y (by simp))
          (by intro k a b; simp [simplify_fuel])
          (is_simplifiable_bottom_up ops x) (is_simplifiable_bottom_up ops y)
      · exact fun a b ha hb => hc ⟨a, b, ha, hb⟩
  | Sum x y ihx ihy =>
    intro fuel hf
    simp only [height] at hf
    obtain ⟨k, rfl⟩ : ∃ k, fuel = k + 1 := ⟨fuel - 1, by omega⟩
    have hk : 1 ≤ k := by have := height_pos x; omega
    by_cases hc : ∃ a b, x = .Const a ∧ y = .Const b
    · obtain ⟨a, b, rfl, rfl⟩ := hc
      rfl
    · rw [simplify_fuel]
      · rw [ihx k (by omega), ihy k (by omega)]
        exact rebuild2 ops k hk (ops.add) .Sum
          (fun x y => is_simplifiable_binary_iff _ x y (by simp))
          (by intro k a b; simp [simplify_fuel])
          (is_simplifiable_bottom_up ops x) (is_simplifiable_bottom_up ops y)
      · exact fun a b ha hb => hc ⟨a, b, ha, hb⟩
  | Difference x y ihx ihy =>
    intro fuel hf
    simp only [height] at hf
    obtain ⟨k, rfl⟩ : ∃ k, fuel = k + 1 := ⟨fuel - 1, by omega⟩
    have hk : 1 ≤ k := by have := height_pos x; omega
    by_cases hc : ∃ a b, x = .Const a ∧ y = .Const b
    · obtain ⟨a, b, rfl, rfl⟩ := hc
      rfl
    · rw [simplify_fuel]
      · rw [ihx k (by omega), ihy k (by omega)]
        exact rebuild2 ops k hk (ops.sub) .Difference
          (fun x y => is_simplifiable_binary_iff _ x y (by simp))
          (by intro k a b; simp [simplify_fuel])
          (is_simplifiable_bottom_up ops x) (is_simplifiable_bottom_up ops y)
      · exact fun a b ha hb => hc ⟨a, b, ha, hb⟩
  | Exponential x y ihx ihy =>
    intro fuel hf
    simp only [height] at hf
    obtain ⟨k, rfl⟩ : ∃ k, fuel = k + 1 := ⟨fuel - 1, by omega⟩
    have hk : 1 ≤ k := by have := height_pos x; omega
    by_cases hc : ∃ a b, x = .Const a ∧ y = .Const b
    · obtain ⟨a, b, rfl, rfl⟩ := hc
      rfl
    · rw [simplify_fuel]
      · rw [ihx k (by omega), ihy k (by omega)]
        exact rebuild2 ops k hk (ops.pow) .Exponential
          (fun x y => is_simplifiable_binary_iff _ x y (by simp))
          (by intro k a b; simp [simplify_fuel])
          (is_simplifiable_bottom_up ops x) (is_simplifiable_bottom_up ops y)
      · exact fun a b ha hb => hc ⟨a, b, ha, hb⟩
  | Logarithm x y ihx ihy =>
    intro fuel hf
    simp only [height] at hf
    obtain ⟨k, rfl⟩ : ∃ k, fuel = k + 1 := ⟨fuel - 1, by omega⟩
    have hk : 1 ≤ k := by have := height_pos x; omega
    by_cases hc : ∃ a b, x = .Const a ∧ y = .Const b
    · obtain ⟨a, b, rfl, rfl⟩ := hc
      rfl
    · rw [simplify_fuel]
      · rw [ihx k (by omega), ihy k (by omega)]
        exact rebuild2 ops k hk (fun b a => ops.div (ops.log a) (ops.log b)) .Logarithm
          (fun x y => is_simplifiable_binary_iff _ x y (by simp))
          (by intro k a b; simp [simplify_fuel])
          (is_simplifiable_bottom_up ops x) (is_simplifiable_bottom_up ops y)
      · exact fun a b ha hb => hc ⟨a, b, ha, hb⟩
  | Power x y ihx ihy =>
    intro fuel hf
    simp only [height] at hf
    obtain ⟨k, rfl⟩ : ∃ k, fuel = k + 1 := ⟨fuel - 1, by omega⟩
    have hk : 1 ≤ k := by have := height_pos x; omega
    by_cases hc : ∃ a b, x = .Const a ∧ y = .Const b
    · obtain ⟨a, b, rfl, rfl⟩ := hc
      rfl
    · rw [simplify_fuel]
      · rw [ihx k (by omega), ihy k (by omega)]
        exact rebuild2 ops k hk (ops.pow) .Power
          (fun x y => is_simplifiable_binary_iff _ x y (by simp))
          (by intro k a b; simp [simplify_fuel])
          (is_simplifiable_bottom_up ops x) (is_simplifiable_bottom_up ops y)
      · exact fun a b ha hb => hc ⟨a, b, ha, hb⟩
  | Sin x ihx =>
    intro fuel hf
    simp only [height] at hf
    obtain ⟨k, rfl⟩ : ∃ k, fuel = k + 1 := ⟨fuel - 1, by omega⟩
    have hk : 1 ≤ k := by have := height_pos x; omega
    by_cases hc : ∃ a, x = .Const a
    · obtain ⟨a, rfl⟩ := hc
      rfl
    · rw [simplify_fuel]
      · rw [ihx k (by omega)]
        exact rebuild1 ops k hk (ops.sin) .Sin
          (fun x => is_simplifiable_unary_iff _ x (by simp))
          (by intro k a; simp [simplify_fuel]) (is_simplifiable_bottom_up ops x)
      · exact fun a ha => hc ⟨a, ha⟩
  | Cos x ihx =>
    intro fuel hf
    simp only [height] at hf
    obtain ⟨k, rfl⟩ : ∃ k, fuel = k + 1 := ⟨fuel - 1, by omega⟩
    have hk : 1 ≤ k := by have := height_pos x; omega
    by_cases hc : ∃ a, x = .Const a
    · obtain ⟨a, rfl⟩ := hc
      rfl
    · rw [simplify_fuel]
      · rw [ihx k (by omega)]
        exact rebuild1 ops k hk (ops.cos) .Cos
          (fun x => is_simplifiable_unary_iff _ x (by simp))
          (by intro k a; simp [simplify_fuel]) (is_simplifiable_bottom_up ops x)
      · exact fun a ha => hc ⟨a, ha⟩
  | Tan x ihx =>
    intro fuel hf
    simp only [height] at hf
    obtain ⟨k, rfl⟩ : ∃ k, fuel = k + 1 := ⟨fuel - 1, by omega⟩
    have hk : 1 ≤ k := by have := height_pos x; omega
    by_cases hc : ∃ a, x = .Const a
    · obtain ⟨a, rfl⟩ := hc
      rfl
    · rw [simplify_fuel]
      · rw [ihx k (by omega)]
        exact rebuild1 ops k hk (ops.tan) .Tan
          (fun x => is_simplifiable_unary_iff _ x (by simp))
          (by intro k a; simp [simplify_fuel]) (is_simplifiable_bottom_up ops x)
      · exact fun a ha => hc ⟨a, ha⟩
  | Negation x ihx =>
    intro fuel hf
    simp only [height] at hf
    obtain ⟨k, rfl⟩ : ∃ k, fuel = k + 1 := ⟨fuel - 1, by omega⟩
    rw [simplify_fuel, ihx k (by omega)]
    have h : is_simplifiable (expr_t.Negation (bottom_up ops x)) = false := by
      rw [is_simplifiable, is_simplifiable_bottom_up]
      simp
    simp only [h]
    rfl
  | Inverse x ihx =>
    intro fuel hf
    simp only [height] at hf
    obtain ⟨k, rfl⟩ : ∃ k, fuel = k + 1 := ⟨fuel - 1, by omega⟩
    have hk : 1 ≤ k := by have := height_pos x; omega
    by_cases hc : ∃ a, x = .Const a
    · obtain ⟨a, rfl⟩ := hc
      rfl
    · rw [simplify_fuel]
      · rw [ihx k (by omega)]
        exact rebuild1 ops k hk (fun a => ops.div ops.one a) .Inverse
          (fun x => is_simplifiable_unary_iff _ x (by simp))
          (by intro k a; simp [simplify_fuel]) (is_simplifiable_bottom_up ops x)
      · exact fun a ha => hc ⟨a, ha⟩

theorem simplify_eq_bottom_up {F : Type} (ops : FloatEnv F) (e : expr_t F) :
    simplify ops e = bottom_up ops e := by
  simp [simplify, simplify_fuel_eq_bottom_up ops e (height e) (Nat.le_refl _)]

/-! ## Lemmas on the closed forms -/

theorem serialize_text_eq {F : Type} (ops : FloatEnv F) (e : expr_t F) :
    serialize_text ops e = (rendering ops e 0).map some := by
  have h := serialize_expr_eq ops Mem.fresh 0 e
  simp only [serialize_text, Mem.read, h.1]
  apply List.ext_getElem
  · simp
  · intro i h1 h2
    simp only [List.length_map, List.length_range] at h1
    simp [h.2, h1]

theorem is_simplifiable_eq_has_foldable_node {F : Type} (e : expr_t F) :
    is_simplifiable e = has_foldable_node e := by
  induction e with
  | Const c => rfl
  | Var v => rfl
  | Product x y ihx ihy | Quotient x y ihx ihy | Sum x y ihx ihy | Difference x y ihx ihy
  | Exponential x y ihx ihy | Logarithm x y ihx ihy | Power x y ihx ihy =>
    rw [is_simplifiable_binary_iff _ x y (by simp), has_foldable_node, foldable_here, ihx, ihy,
      Bool.or_assoc]
  | Sin x ihx | Cos x ihx | Tan x ihx | Inverse x ihx =>
    rw [is_simplifiable_unary_iff _ x (by simp), has_foldable_node, foldable_here, ihx]
  | Negation x ihx =>
    rw [is_simplifiable, has_foldable_node, ← ihx]
    cases x <;> simp [expr_t.variant, is_simplifiable]

theorem bottom_up_of_not_simplifiable {F : Type} (ops : FloatEnv F) (e : expr_t F) :
    is_simplifiable e = false → bottom_up ops e = e := by
  induction e with
  | Const c => intro _; rfl
  | Var v => intro _; rfl
  | Product x y ihx ihy | Quotient x y ihx ihy | Sum x y ihx ihy | Difference x y ihx ihy
  | Exponential x y ihx ihy | Logarithm x y ihx ihy | Power x y ihx ihy =>
    intro h
    rw [is_simplifiable_binary_iff _ x y (by simp)] at h
    simp only [Bool.or_eq_false_iff] at h
    rw [bottom_up, ihx h.2.1, ihy h.2.2, fold2_of_not_const _ _ _ _ h.1]
  | Sin x ihx | Cos x ihx | Tan x ihx | Inverse x ihx =>
    intro h
    rw [is_simplifiable_unary_iff _ x (by simp)] at h
    simp only [Bool.or_eq_false_iff] at h
    rw [bottom_up, ihx h.2, fold1_of_not_const _ _ _ h.1]
  | Negation x ihx =>
    intro h
    have hx : is_simplifiable x = false := by
      rw [is_simplifiable] at h
      cases x <;> simp_all [expr_t.variant, is_simplifiable]
    rw [bottom_up, ihx hx]

theorem value_fold2 {F : Type} (ops : FloatEnv F) (env : UInt8 → F) (f : F → F → F)
    (mk : expr_t F → expr_t F → expr_t F)
    (hmk : ∀ x y, value ops env (mk x y) = f (value ops env x) (value ops env y))
    (x y : expr_t F) :
    value ops env (fold2 f mk x y) = f (value ops env x) (value ops env y) := by
  unfold fold2
  split
  · rfl
  · exact hmk _ _

theorem value_fold1 {F : Type} (ops : FloatEnv F) (env : UInt8 → F) (f : F → F)
    (mk : expr_t F → expr_t F)
    (hmk : ∀ x, value ops env (mk x) = f (value ops env x)) (x : expr_t F) :
    value ops env (fold1 f mk x) = f (value ops env x) := by
  unfold fold1
  split
  · rfl
  · exact hmk _

theorem value_bottom_up {F : Type} (ops : FloatEnv F) (env : UInt8 → F) (e : expr_t F) :
    value ops env (bottom_up ops e) = value ops env e := by
  induction e with
  | Const c => rfl
  | Var v => rfl
  | Product x y ihx ihy | Quotient x y ihx ihy | Sum x y ihx ihy | Difference x y ihx ihy
  | Exponential x y ihx ihy | Logarithm x y ihx ihy | Power x y ihx ihy =>
    rw [bottom_up, value_fold2 ops env _ _ (fun _ _ => rfl), ihx, ihy]
    rfl
  | Sin x ihx | Cos x ihx | Tan x ihx | Inverse x ihx =>
    rw [bottom_up, value_fold1 ops env _ _ (fun _ => rfl), ihx]
    rfl
  | Negation x ihx =>
    rw [bottom_up, value, ihx]
    rfl

theorem bottom_up_ground {F : Type} (ops : FloatEnv F) (env : UInt8 → F) (e : expr_t F) :
    has_variable_or_negation e = false → bottom_up ops e = .Const (value ops env e) := by
  induction e with
  | Const c => intro _; rfl
  | Var v => intro h; simp [has_variable_or_negation] at h
  | Product x y ihx ihy | Quotient x y ihx ihy | Sum x y ihx ihy | Difference x y ihx ihy
  | Exponential x y ihx ihy | Logarithm x y ihx ihy | Power x y ihx ihy =>
    intro h
    simp only [has_variable_or_negation, Bool.or_eq_false_iff] at h
    rw [bottom_up, ihx h.1, ihy h.2]
    rfl
  | Sin x ihx | Cos x ihx | Tan x ihx | Inverse x ihx =>
    intro h
    simp only [has_variable_or_negation] at h
    rw [bottom_up, ihx h]
    rfl
  | Negation x ihx => intro h; simp [has_variable_or_negation] at h

/-! ## Serializer: the two passes agree -/

/-- Claim C1: for every expression, whatever the memory and the buffer address,
the count `serialize_expr` returns equals `serialized_expr_size`. -/
theorem serialize_expr_returns_serialized_expr_size {F : Type} (ops : FloatEnv F)
    (e : expr_t F) (m : Mem) (buffer : Nat) :
    (serialize_expr ops m buffer e).2 = serialized_expr_size ops e := by
  rw [(serialize_expr_eq ops m buffer e).1, serialized_expr_size,
    count_serialized_expr_size_eq]

/-- Claim C2 fails as stated: `Const 5` measures 1 byte, and `serialize_expr`
stores two, the digit at `buffer[0]` and the zero terminator of `sprintf` at
`buffer[1]`, so a buffer of `serialized_expr_size` bytes does not hold all it
writes. -/
theorem serialize_expr_writes_past_the_measure :
    serialized_expr_size intEnv (.Const 5) = 1
    ∧ (serialize_expr intEnv Mem.fresh 0 (.Const 5)).1 0 = some '5'.toUInt8
    ∧ (serialize_expr intEnv Mem.fresh 0 (.Const 5)).1 1 = some 0
    ∧ ¬ (∀ i, ((serialize_expr intEnv Mem.fresh 0 (.Const 5)).1 i).isSome = true
        → i < serialized_expr_size intEnv (.Const 5)) := by
  refine ⟨by decide, by decide, by decide, fun h => ?_⟩
  exact absurd (h 1 (by decide)) (by decide)

/-- Claim C2, amended: on a buffer nothing was stored in, the cells
`serialize_expr` stores text in are exactly the `serialized_expr_size e` cells
from `buffer` on, so the measure is the length of the text, the `Inverse` suffix
counting as the five bytes of its UTF-8 encoding; the only other cell touched
is the next one, `buffer[serialized_expr_size e]`, which receives the zero
terminator of `sprintf` exactly when the last thing stored was one (always for
a `Constant` or a `Variable`): the buffer needs `serialized_expr_size e + 1`
bytes. -/
theorem serialize_expr_text_and_terminator {F : Type} (ops : FloatEnv F)
    (e : expr_t F) (c : F) (v : UInt8) (buffer i : Nat) :
    ((((serialize_expr ops Mem.fresh buffer e).1 i).isSome = true
        ↔ buffer ≤ i ∧ i < buffer + serialized_expr_size ops e)
      ∨ (i = buffer + serialized_expr_size ops e
        ∧ (serialize_expr ops Mem.fresh buffer e).1 i = some 0))
    ∧ (serialize_expr ops Mem.fresh buffer e).1 (buffer + serialized_expr_size ops e)
        = (if trailing_nul e 0 = true then some 0 else none)
    ∧ (serialize_expr ops Mem.fresh buffer e).1
        (buffer + serialized_expr_size ops e + 1 + i) = none
    ∧ (serialize_expr ops Mem.fresh buffer (.Const c)).1
        (buffer + serialized_expr_size ops (.Const c)) = some 0
    ∧ (serialize_expr ops Mem.fresh buffer (.Var v : expr_t F)).1
        (buffer + serialized_expr_size ops (.Var v : expr_t F)) = some 0
    ∧ serialized_expr_size ops (.Inverse e)
        = count_serialized_expr_size ops e 1 + "⁻¹".utf8ByteSize := by
  have hcell : ∀ (t : expr_t F) (j : Nat),
      (serialize_expr ops Mem.fresh buffer t).1 (buffer + serialized_expr_size ops t + j)
        = (if j = 0 ∧ trailing_nul t 0 = true then some 0 else none) := by
    intro t j
    rw [(serialize_expr_eq ops Mem.fresh buffer t).2, serialized_expr_size,
      count_serialized_expr_size_eq, if_neg (by omega), if_neg (by omega)]
    by_cases hj : j = 0
    · subst hj
      by_cases ht : trailing_nul t 0 = true
      · simp [ht]
      · simp [ht, Mem.fresh]
    · rw [if_neg (by omega), if_neg (by omega)]
      rfl
  refine ⟨?_, ?_, ?_, ?_, ?_, ?_⟩
  · rw [(serialize_expr_eq ops Mem.fresh buffer e).2 i, serialized_expr_size,
      count_serialized_expr_size_eq]
    by_cases h1 : i < buffer
    · left
      simp only [if_pos h1, Mem.fresh]
      constructor
      · intro h; simp at h
      · intro h; omega
    · by_cases h2 : i < buffer + (rendering ops e 0).length
      · left
        simp only [if_neg h1, if_pos h2]
        have h3 : i - buffer < (rendering ops e 0).length := by omega
        simp only [List.getElem?_eq_getElem h3, Option.isSome_some, true_iff]
        omega
      · by_cases h3 : i = buffer + (rendering ops e 0).length ∧ trailing_nul e 0 = true
        · right
          simp only [if_neg h1, if_neg h2, if_pos h3]
          exact ⟨h3.1, trivial⟩
        · left
          simp only [if_neg h1, if_neg h2, if_neg h3, Mem.fresh]
          constructor
          · intro h; simp at h
          · intro h; omega
  · have := hcell e 0
    simpa using this
  · have := hcell e (1 + i)
    rw [if_neg (by omega), ← Nat.add_assoc] at this
    exact this
  · have := hcell (.Const c) 0
    simpa [trailing_nul] using this
  · have := hcell (.Var v) 0
    simpa [trailing_nul] using this
  · have h : "⁻¹".utf8ByteSize = (cstr "⁻¹").length := by decide
    rw [h]
    simp [serialized_expr_size, count_serialized_expr_size, parens_condition]

/-! ## Simplifier -/

/-- Claim C3: `simplify` is idempotent: simplifying a simplified tree leaves the
same tree, hence the same serialized text. -/
theorem simplify_idempotent {F : Type} (ops : FloatEnv F) (e : expr_t F) :
    simplify ops (simplify ops e) = simplify ops e
    ∧ serialize_text ops (simplify ops (simplify ops e)) = serialize_text ops (simplify ops e) := by
  have h : simplify ops (simplify ops e) = simplify ops e := by
    rw [simplify_eq_bottom_up ops (simplify ops e), simplify_eq_bottom_up ops e]
    exact bottom_up_of_not_simplifiable ops _ (is_simplifiable_bottom_up ops e)
  exact ⟨h, by rw [h]⟩

/-- Claim C4: under every assignment of the variables, the value of
`simplify e` by the fold formulas equals the value of `e`. -/
theorem simplify_preserves_value {F : Type} (ops : FloatEnv F) (env : UInt8 → F)
    (e : expr_t F) : value ops env (simplify ops e) = value ops env e := by
  rw [simplify_eq_bottom_up]
  exact value_bottom_up ops env e

/-- Claim C5: `is_simplifiable` returns false on `simplify e`; no node of the
result is a binary node with two `Constant` children or a `Sin`, `Cos`, `Tan` or
`Inverse` node with a `Constant` child. -/
theorem simplify_not_simplifiable {F : Type} (ops : FloatEnv F) (e : expr_t F) :
    is_simplifiable (simplify ops e) = false ∧ has_foldable_node (simplify ops e) = false := by
  have h : is_simplifiable (simplify ops e) = false := by
    rw [simplify_eq_bottom_up]
    exact is_simplifiable_bottom_up ops e
  exact ⟨h, by rw [← is_simplifiable_eq_has_foldable_node, h]⟩

/-- Claim C6: `simplify` terminates on every tree: with `height e` nested
activations allowed, or any number more, the call returns (the tree `simplify e`),
the call on the rebuilt node included. -/
theorem simplify_terminates {F : Type} (ops : FloatEnv F) (e : expr_t F) (n : Nat) :
    simplify_fuel ops (height e + n) e = some (simplify ops e) := by
  rw [simplify_eq_bottom_up]
  exact simplify_fuel_eq_bottom_up ops e _ (Nat.le_add_right _ _)

/-- Claim C7: a tree without `Variable` and without `Negation` nodes simplifies
to the single `Constant` node holding its value by the fold formulas. -/
theorem simplify_ground {F : Type} (ops : FloatEnv F) (e : expr_t F)
    (h : has_variable_or_negation e = false) (env : UInt8 → F) :
    simplify ops e = .Const (value ops env e) := by
  rw [simplify_eq_bottom_up]
  exact bottom_up_ground ops env e h

theorem simplify_ground_witness :
    has_variable_or_negation
        (expr_t.Product (.Sum (.Const (2 : Int)) (.Const 3)) (.Const 4)) = false
    ∧ simplify intEnv (expr_t.Product (.Sum (.Const 2) (.Const 3)) (.Const 4))
        = .Const (value intEnv (fun _ => 0)
            (expr_t.Product (.Sum (.Const 2) (.Const 3)) (.Const 4)))
    ∧ value intEnv (fun _ => 0) (expr_t.Product (.Sum (.Const 2) (.Const 3)) (.Const 4)) = 20 :=
  ⟨by decide, simplify_ground intEnv _ (by decide) (fun _ => 0), by decide⟩

/-- Claim C8: a tree on which `is_simplifiable` returns false is left as it is
by `simplify`. -/
theorem simplify_of_not_simplifiable {F : Type} (ops : FloatEnv F) (e : expr_t F)
    (h : is_simplifiable e = false) : simplify ops e = e := by
  rw [simplify_eq_bottom_up]
  exact bottom_up_of_not_simplifiable ops e h

theorem simplify_of_not_simplifiable_witness :
    (is_simplifiable (expr_t.Sum (.Var 'x'.toUInt8) (.Var 'y'.toUInt8) : expr_t Int) = false
      ∧ simplify intEnv (expr_t.Sum (.Var 'x'.toUInt8) (.Var 'y'.toUInt8))
          = expr_t.Sum (.Var 'x'.toUInt8) (.Var 'y'.toUInt8))
    ∧ (is_simplifiable (expr_t.Sum (.Var 'x'.toUInt8) (.Const (0 : Int))) = false
      ∧ simplify intEnv (expr_t.Sum (.Var 'x'.toUInt8) (.Const 0))
          = expr_t.Sum (.Var 'x'.toUInt8) (.Const 0))
    ∧ (is_simplifiable (expr_t.Product (.Var 'x'.toUInt8) (.Const (1 : Int))) = false
      ∧ simplify intEnv (expr_t.Product (.Var 'x'.toUInt8) (.Const 1))
          = expr_t.Product (.Var 'x'.toUInt8) (.Const 1)) :=
  ⟨⟨by decide, simplify_of_not_simplifiable intEnv _ (by decide)⟩,
    ⟨by decide, simplify_of_not_simplifiable intEnv _ (by decide)⟩,
    ⟨by decide, simplify_of_not_simplifiable intEnv _ (by decide)⟩⟩

/-- Claim C9, evaluated on the code: for every constant `c`, `simplify` leaves
`Negation(Negation(Const c))` as it is, and the text serialized for it is
`-(-` followed by the text of `c` and `)`, which is not the text of `Const c`. -/
theorem simplify_double_negation_kept {F : Type} (ops : FloatEnv F) (c : F) :
    simplify ops (.Negation (.Negation (.Const c))) = .Negation (.Negation (.Const c))
    ∧ serialize_text ops (simplify ops (.Negation (.Negation (.Const c))))
        = (['-'.toUInt8, '('.toUInt8, '-'.toUInt8] ++ ops.fmt c ++ [')'.toUInt8]).map some
    ∧ serialize_text ops (simplify ops (.Negation (.Negation (.Const c))))
        ≠ serialize_text ops (.Const c) := by
  have h : simplify ops (.Negation (.Negation (.Const c)))
      = .Negation (.Negation (.Const c)) := by
    rw [simplify_eq_bottom_up]
    rfl
  refine ⟨h, ?_, ?_⟩
  · rw [h, serialize_text_eq]
    simp [rendering, wrap]
  · rw [h, serialize_text_eq, serialize_text_eq]
    intro heq
    have := congrArg List.length heq
    simp [rendering, wrap] at this
    omega

/-- Claim C10: `Negation` is never folded: `simplify` of `Negation(e)` is the node
`Negation(simplify e)`; `Negation(Const c)` stays, and serializes as `-` followed
by the text of `c`. -/
theorem simplify_negation {F : Type} (ops : FloatEnv F) (e : expr_t F) (c : F) :
    simplify ops (.Negation e) = .Negation (simplify ops e)
    ∧ simplify ops (.Negation (.Const c)) = .Negation (.Const c)
    ∧ serialize_text ops (simplify ops (.Negation (.Const c)))
        = some '-'.toUInt8 :: (ops.fmt c).map some := by
  have h : simplify ops (.Negation (.Const c)) = .Negation (.Const c) := by
    rw [simplify_eq_bottom_up]
    rfl
  refine ⟨?_, h, ?_⟩
  · rw [simplify_eq_bottom_up, simplify_eq_bottom_up]
    rfl
  · rw [h, serialize_text_eq]
    simp [rendering, wrap]

/-! ## Simplifier: the fold branches -/

/-- Claim C11: a binary node over two constants becomes the single constant the
fold formula gives: `a+b`, `a-b`, `a*b`, `a/b` (whatever `b`), and `pow(a,b)` for
both `Power` and `Exponential`; `Sum(Const 3, Const 2)` becomes `Const 5`. -/
theorem simplify_binary_constants {F : Type} (ops : FloatEnv F) (a b : F) :
    simplify ops (.Sum (.Const a) (.Const b)) = .Const (ops.add a b)
    ∧ simplify ops (.Difference (.Const a) (.Const b)) = .Const (ops.sub a b)
    ∧ simplify ops (.Product (.Const a) (.Const b)) = .Const (ops.mul a b)
    ∧ simplify ops (.Quotient (.Const a) (.Const b)) = .Const (ops.div a b)
    ∧ simplify ops (.Power (.Const a) (.Const b)) = .Const (ops.pow a b)
    ∧ simplify ops (.Exponential (.Const a) (.Const b)) = .Const (ops.pow a b)
    ∧ simplify intEnv (.Sum (.Const 3) (.Const 2)) = .Const 5 := by
  simp only [simplify_eq_bottom_up]
  exact ⟨rfl, rfl, rfl, rfl, rfl, rfl, by decide⟩

/-- Claim C12: `Logarithm(Const b, Const x)` becomes `Const (ln x / ln b)`: the
left child is the base, the right child the argument. -/
theorem simplify_logarithm_constants {F : Type} (ops : FloatEnv F) (b x : F) :
    simplify ops (.Logarithm (.Const b) (.Const x))
      = .Const (ops.div (ops.log x) (ops.log b)) := by
  rw [simplify_eq_bottom_up]
  rfl

theorem simplify_unary {F : Type} (ops : FloatEnv F) (f : F → F) (mk : expr_t F → expr_t F)
    (x : expr_t F) (h : bottom_up ops (mk x) = fold1 f mk (bottom_up ops x)) :
    simplify ops (mk x) =
      match simplify ops x with
      | .Const a => .Const (f a)
      | x' => mk x' := by
  rw [simplify_eq_bottom_up, simplify_eq_bottom_up, h]
  generalize bottom_up ops x = r
  cases r <;> rfl

/-- Claim C13: `Inverse`, `Sin`, `Cos` and `Tan` of a constant become the
constant `1/c`, `sin c`, `cos c`, `tan c` (whatever `c`); over any operand, the
operand is simplified and the node is folded when that gave a constant,
rebuilt otherwise; `Inverse(Inverse(Const c))` becomes `Const (1/(1/c))`. -/
theorem simplify_unary_constants {F : Type} (ops : FloatEnv F) (c : F) (x : expr_t F) :
    (simplify ops (.Inverse (.Const c)) = .Const (ops.div ops.one c)
      ∧ simplify ops (.Sin (.Const c)) = .Const (ops.sin c)
      ∧ simplify ops (.Cos (.Const c)) = .Const (ops.cos c)
      ∧ simplify ops (.Tan (.Const c)) = .Const (ops.tan c))
    ∧ (simplify ops (.Inverse x) =
        match simplify ops x with
        | .Const a => .Const (ops.div ops.one a)
        | x' => .Inverse x')
    ∧ (simplify ops (.Sin x) =
        match simplify ops x with
        | .Const a => .Const (ops.sin a)
        | x' => .Sin x')
    ∧ (simplify ops (.Cos x) =
        match simplify ops x with
        | .Const a => .Const (ops.cos a)
        | x' => .Cos x')
    ∧ (simplify ops (.Tan x) =
        match simplify ops x with
        | .Const a => .Const (ops.tan a)
        | x' => .Tan x')
    ∧ simplify ops (.Inverse (.Inverse (.Const c)))
        = .Const (ops.div ops.one (ops.div ops.one c)) := by
  refine ⟨?_, simplify_unary ops _ .Inverse x rfl, simplify_unary ops _ .Sin x rfl,
    simplify_unary ops _ .Cos x rfl, simplify_unary ops _ .Tan x rfl, ?_⟩
  · simp only [simplify_eq_bottom_up]
    exact ⟨rfl, rfl, rfl, rfl⟩
  · rw [simplify_eq_bottom_up]
    rfl

/-! ## Classification -/

theorem nodes_self {F : Type} (e : expr_t F) : e ∈ nodes e := by
  cases e <;> simp [nodes]

theorem has_foldable_node_iff {F : Type} (e : expr_t F) :
    has_foldable_node e = true ↔ ∃ n ∈ nodes e, foldable_here n = true := by
  induction e with
  | Const c => simp [has_foldable_node, nodes, foldable_here]
  | Var v => simp [has_foldable_node, nodes, foldable_here]
  | Product x y ihx ihy | Quotient x y ihx ihy | Sum x y ihx ihy | Difference x y ihx ihy
  | Exponential x y ihx ihy | Logarithm x y ihx ihy | Power x y ihx ihy =>
    simp only [has_foldable_node, nodes, Bool.or_eq_true, ihx, ihy, List.mem_cons,
      List.mem_append, exists_eq_or_imp, or_and_right, exists_or, or_assoc, exists_eq_left]
  | Sin x ihx | Cos x ihx | Tan x ihx | Inverse x ihx =>
    simp only [has_foldable_node, nodes, Bool.or_eq_true, ihx, List.mem_cons,
      exists_eq_or_imp]
  | Negation x ihx =>
    simp only [has_foldable_node, nodes, ihx, List.mem_cons, exists_eq_or_imp, foldable_here,
      Bool.false_eq_true, false_or]

/-- Claim C14: `is_simplifiable e` is true exactly when `e` or one of its
descendants is a binary node over two `Constant` children or a `Sin`, `Cos`,
`Tan` or `Inverse` node over a `Constant` child. -/
theorem is_simplifiable_iff_foldable_node {F : Type} (e : expr_t F) :
    is_simplifiable e = true ↔ ∃ n ∈ nodes e, foldable_here n = true := by
  rw [is_simplifiable_eq_has_foldable_node]
  exact has_foldable_node_iff e

/-- Claim C15 fails as stated: `is_simplifiable` returns true on the `Negation`
of `Sum(Const 1, Const 2)`. -/
theorem is_simplifiable_negation_of_sum :
    is_simplifiable (expr_t.Negation (.Sum (.Const (1 : Int)) (.Const 2))) = true := by
  decide

/-- Claim C15, amended: `is_simplifiable` returns false on every `Constant`, every
`Variable` and every `Negation` of a `Constant`; on any `Negation` it returns what
it returns on the operand, so the `Negation` node is never what is reported. -/
theorem is_simplifiable_leaf_negation {F : Type} (c : F) (v : UInt8) (e : expr_t F) :
    is_simplifiable (expr_t.Const c) = false
    ∧ is_simplifiable (expr_t.Var v : expr_t F) = false
    ∧ is_simplifiable (expr_t.Negation (.Const c)) = false
    ∧ is_simplifiable (expr_t.Negation e) = is_simplifiable e
    ∧ foldable_here (expr_t.Negation e) = false := by
  refine ⟨rfl, rfl, rfl, ?_, rfl⟩
  rw [is_simplifiable]
  cases e <;> simp [expr_t.variant, is_simplifiable]

/-- Claim C16: `is_binary_expression` is true exactly for the kinds `Product`,
`Quotient`, `Sum`, `Difference`, `Exponential`, `Logarithm`, `Power` and false
exactly for the seven others; the answer is a function of the kind alone. -/
theorem is_binary_expression_iff {F : Type} (e : expr_t F) :
    (is_binary_expression e = true ↔
      e.variant = EXPR_PRODUCT ∨ e.variant = EXPR_QUOTIENT ∨ e.variant = EXPR_SUM
      ∨ e.variant = EXPR_DIFFERENCE ∨ e.variant = EXPR_EXPONENTIAL
      ∨ e.variant = EXPR_LOGARITHM ∨ e.variant = EXPR_POWER)
    ∧ (is_binary_expression e = false ↔
      e.variant = EXPR_CONSTANT ∨ e.variant = EXPR_VARIABLE ∨ e.variant = EXPR_NEGATION
      ∨ e.variant = EXPR_INVERSE ∨ e.variant = EXPR_SIN ∨ e.variant = EXPR_COS
      ∨ e.variant = EXPR_TAN) := by
  cases e <;> simp [is_binary_expression, expr_t.variant]

/-! ## Serializer: the text of single nodes -/

theorem counted_text_eq {F : Type} (ops : FloatEnv F) (e : expr_t F) (d : Nat) :
    counted_text ops e d = (rendering ops e d).map some := by
  simp only [counted_text, Mem.read, counted_serialize_expr_eq]
  apply List.ext_getElem
  · simp
  · intro i h1 h2
    simp only [List.length_map, List.length_range] at h1
    simp [put_apply, h1]

theorem rendering_depth_pos {F : Type} (ops : FloatEnv F) (e : expr_t F) :
    ∀ d1 d2 : Nat, 0 < d1 → 0 < d2 → rendering ops e d1 = rendering ops e d2 := by
  induction e with
  | Const c => intro d1 d2 _ _; rfl
  | Var v => intro d1 d2 _ _; rfl
  | Product x y ihx ihy | Logarithm x y ihx ihy =>
    intro d1 d2 h1 h2
    simp only [rendering]
    rw [ihx (d1 + 1) (d2 + 1) (by omega) (by omega), ihy (d1 + 1) (d2 + 1) (by omega) (by omega)]
  | Quotient x y ihx ihy | Sum x y ihx ihy | Difference x y ihx ihy
  | Exponential x y ihx ihy | Power x y ihx ihy =>
    intro d1 d2 h1 h2
    simp only [rendering]
    rw [ihx (d1 + 1) (d2 + 1) (by omega) (by omega), ihy (d1 + 1) (d2 + 1) (by omega) (by omega)]
    simp [h1, h2]
  | Sin x ihx | Cos x ihx | Tan x ihx =>
    intro d1 d2 h1 h2
    simp only [rendering]
    rw [ihx (d1 + 1) (d2 + 1) (by omega) (by omega)]
  | Negation x ihx | Inverse x ihx =>
    intro d1 d2 h1 h2
    simp only [rendering]
    rw [ihx (d1 + 1) (d2 + 1) (by omega) (by omega)]
    simp [h1, h2]

theorem rendering_child_depth {F : Type} (ops : FloatEnv F) (e : expr_t F) (d : Nat) :
    rendering ops e (d + 1 + 1) = rendering ops e 1 :=
  rendering_depth_pos ops e _ _ (by omega) (by omega)

/-- Claim C17: at depth 0 the parenthesis condition is false (the root is never
wrapped); at any depth above 0 the text of a node is its text at depth 0 as it
is when its kind is `Constant`, `Variable`, `Product`, `Logarithm`, `Sin`, `Cos` or
`Tan`, and that text between one `(` and one `)` for every other kind. -/
theorem serializer_parenthesization {F : Type} (ops : FloatEnv F) (e : expr_t F) (d : Nat) :
    parens_condition e.variant 0 = false
    ∧ counted_text ops e (d + 1) =
        if e.variant = EXPR_CONSTANT ∨ e.variant = EXPR_VARIABLE ∨ e.variant = EXPR_PRODUCT
          ∨ e.variant = EXPR_LOGARITHM ∨ e.variant = EXPR_SIN ∨ e.variant = EXPR_COS
          ∨ e.variant = EXPR_TAN
        then counted_text ops e 0
        else some '('.toUInt8 :: (counted_text ops e 0 ++ [some ')'.toUInt8]) := by
  refine ⟨by simp [parens_condition], ?_⟩
  rw [counted_text_eq, counted_text_eq]
  cases e <;>
    simp [rendering, wrap, expr_t.variant, rendering_child_depth]

/-- Claim C18: the text of `Product(l, r)`, at any depth, is by the first case
that applies: the text of `l` as a child then that of `r`, when `l` is a `Constant`
and `r` a `Variable` or `l` is a `Sum`; else the text of `r` as a child then that of
`l`, when `l` is a `Variable` and `r` a `Constant` or `r` is a `Sum`; otherwise the
text of `l`, a `*`, the text of `r`.  The measuring pass counts by the same
cases, and two `Sum` children fall in the first case. -/
theorem serializer_product {F : Type} (ops : FloatEnv F) (l r a b p q : expr_t F) (d : Nat) :
    (counted_text ops (.Product l r) d =
      if (l.variant = EXPR_CONSTANT ∧ r.variant = EXPR_VARIABLE) ∨ l.variant = EXPR_SUM then
        counted_text ops l (d + 1) ++ counted_text ops r (d + 1)
      else if (l.variant = EXPR_VARIABLE ∧ r.variant = EXPR_CONSTANT)
          ∨ r.variant = EXPR_SUM then
        counted_text ops r (d + 1) ++ counted_text ops l (d + 1)
      else
        counted_text ops l (d + 1) ++ some '*'.toUInt8 :: counted_text ops r (d + 1))
    ∧ (count_serialized_expr_size ops (.Product l r) d =
      if (l.variant = EXPR_CONSTANT ∧ r.variant = EXPR_VARIABLE) ∨ l.variant = EXPR_SUM then
        count_serialized_expr_size ops l (d + 1) + count_serialized_expr_size ops r (d + 1)
      else if (l.variant = EXPR_VARIABLE ∧ r.variant = EXPR_CONSTANT)
          ∨ r.variant = EXPR_SUM then
        count_serialized_expr_size ops r (d + 1) + count_serialized_expr_size ops l (d + 1)
      else
        count_serialized_expr_size ops l (d + 1) + 1
          + count_serialized_expr_size ops r (d + 1))
    ∧ counted_text ops (.Product (.Sum a b) (.Sum p q)) d =
        counted_text ops (.Sum a b) (d + 1) ++ counted_text ops (.Sum p q) (d + 1) := by
  refine ⟨?_, ?_, ?_⟩
  · simp only [counted_text_eq, rendering, beq_iff_eq, Bool.or_eq_true, Bool.and_eq_true]
    split
    · simp
    · split <;> simp
  · simp only [count_serialized_expr_size, beq_iff_eq, Bool.or_eq_true, Bool.and_eq_true]
    split
    · simp [parens_condition]
    · split <;> simp [parens_condition]
  · simp [counted_text_eq, rendering, expr_t.variant]

/-- Claim C19: `Product(Var v, Const c)` and `Product(Const c, Var v)` serialize
to the same text, the text of `c` immediately followed by `v`; with `c = 3` and
`v = x` it is `3x`. -/
theorem serializer_product_reorders {F : Type} (ops : FloatEnv F) (c : F) (v : UInt8) :
    serialize_text ops (.Product (.Var v) (.Const c)) = (ops.fmt c ++ [v]).map some
    ∧ serialize_text ops (.Product (.Const c) (.Var v)) = (ops.fmt c ++ [v]).map some
    ∧ serialize_text intEnv (.Product (.Var 'x'.toUInt8) (.Const 3))
        = [some '3'.toUInt8, some 'x'.toUInt8]
    ∧ serialize_text intEnv (.Product (.Const 3) (.Var 'x'.toUInt8))
        = [some '3'.toUInt8, some 'x'.toUInt8] := by
  refine ⟨?_, ?_, by decide, by decide⟩
  · simp [serialize_text_eq, rendering, expr_t.variant]
  · simp [serialize_text_eq, rendering, expr_t.variant]

/-- Claim C20: the text of `Quotient(l, r)`, `Sum(l, r)`, `Difference(l, r)`,
`Exponential(l, r)` and `Power(l, r)` is the text of `l` as a child, then `/`, `+`,
`-`, `^`, `^` respectively, then the text of `r` as a child; at depth 0 as it is,
at any other depth between parentheses. -/
theorem serializer_infix {F : Type} (ops : FloatEnv F) (l r : expr_t F) (d : Nat) :
    (counted_text ops (.Quotient l r) d =
        if d = 0 then
          counted_text ops l (d + 1) ++ some '/'.toUInt8 :: counted_text ops r (d + 1)
        else
          some '('.toUInt8 :: ((counted_text ops l (d + 1)
            ++ some '/'.toUInt8 :: counted_text ops r (d + 1)) ++ [some ')'.toUInt8]))
    ∧ (counted_text ops (.Sum l r) d =
        if d = 0 then
          counted_text ops l (d + 1) ++ some '+'.toUInt8 :: counted_text ops r (d + 1)
        else
          some '('.toUInt8 :: ((counted_text ops l (d + 1)
            ++ some '+'.toUInt8 :: counted_text ops r (d + 1)) ++ [some ')'.toUInt8]))
    ∧ (counted_text ops (.Difference l r) d =
        if d = 0 then
          counted_text ops l (d + 1) ++ some '-'.toUInt8 :: counted_text ops r (d + 1)
        else
          some '('.toUInt8 :: ((counted_text ops l (d + 1)
            ++ some '-'.toUInt8 :: counted_text ops r (d + 1)) ++ [some ')'.toUInt8]))
    ∧ (counted_text ops (.Exponential l r) d =
        if d = 0 then
          counted_text ops l (d + 1) ++ some '^'.toUInt8 :: counted_text ops r (d + 1)
        else
          some '('.toUInt8 :: ((counted_text ops l (d + 1)
            ++ some '^'.toUInt8 :: counted_text ops r (d + 1)) ++ [some ')'.toUInt8]))
    ∧ (counted_text ops (.Power l r) d =
        if d = 0 then
          counted_text ops l (d + 1) ++ some '^'.toUInt8 :: counted_text ops r (d + 1)
        else
          some '('.toUInt8 :: ((counted_text ops l (d + 1)
            ++ some '^'.toUInt8 :: counted_text ops r (d + 1)) ++ [some ')'.toUInt8])) := by
  simp only [counted_text_eq, rendering, wrap]
  cases d <;> simp

/-! ## Serializer: kinds that share a surface form, function-call and unary forms -/

theorem variant_power_form {F : Type} (e : expr_t F) :
    ((power_form e).variant == EXPR_CONSTANT) = (e.variant == EXPR_CONSTANT)
    ∧ ((power_form e).variant == EXPR_VARIABLE) = (e.variant == EXPR_VARIABLE)
    ∧ ((power_form e).variant == EXPR_SUM) = (e.variant == EXPR_SUM) := by
  cases e <;> simp [power_form, expr_t.variant]

theorem rendering_power_form {F : Type} (ops : FloatEnv F) (e : expr_t F) :
    ∀ d, rendering ops (power_form e) d = rendering ops e d := by
  induction e with
  | Const c => intro d; rfl
  | Var v => intro d; rfl
  | Product x y ihx ihy =>
    intro d
    simp only [power_form, rendering, ihx, ihy, (variant_power_form x).1,
      (variant_power_form x).2.1, (variant_power_form x).2.2, (variant_power_form y).1,
      (variant_power_form y).2.1, (variant_power_form y).2.2]
  | Quotient x y ihx ihy | Sum x y ihx ihy | Difference x y ihx ihy
  | Exponential x y ihx ihy | Power x y ihx ihy | Logarithm x y ihx ihy =>
    intro d
    simp only [power_form, rendering, ihx, ihy]
  | Sin x ihx | Cos x ihx | Tan x ihx | Negation x ihx | Inverse x ihx =>
    intro d
    simp only [power_form, rendering, ihx]

/-- Claim C21: `Exponential(l, r)` and `Power(l, r)` have the same text and the
same measured size at every depth; and turning the `Exponential` nodes of any
tree into `Power` nodes changes neither its text nor its measured size, so the
two kinds are not told apart under any parent either. -/
theorem serializer_exponential_as_power {F : Type} (ops : FloatEnv F)
    (l r e : expr_t F) (d : Nat) :
    counted_text ops (.Exponential l r) d = counted_text ops (.Power l r) d
    ∧ count_serialized_expr_size ops (.Exponential l r) d
        = count_serialized_expr_size ops (.Power l r) d
    ∧ counted_text ops (power_form e) d = counted_text ops e d
    ∧ count_serialized_expr_size ops (power_form e) d = count_serialized_expr_size ops e d := by
  refine ⟨?_, ?_, ?_, ?_⟩
  · rw [counted_text_eq, counted_text_eq]
    rfl
  · rw [count_serialized_expr_size_eq, count_serialized_expr_size_eq]
    rfl
  · rw [counted_text_eq, counted_text_eq, rendering_power_form]
  · rw [count_serialized_expr_size_eq, count_serialized_expr_size_eq, rendering_power_form]

/-- Claim C22: at every depth `Logarithm(b, x)` is `log(`, the text of `b` as a
child, a comma, the text of `x` as a child and `)`, and `Sin(e)`, `Cos(e)`, `Tan(e)`
are `sin(`, `cos(`, `tan(`, the text of `e` as a child and `)`, with no parentheses
of their own; `Sin(Sum(x, y))` is `sin((x+y))`. -/
theorem serializer_function_forms {F : Type} (ops : FloatEnv F) (b x e : expr_t F)
    (d : Nat) :
    counted_text ops (.Logarithm b x) d =
        (cstr "log(").map some ++ counted_text ops b (d + 1)
          ++ some ','.toUInt8 :: counted_text ops x (d + 1) ++ [some ')'.toUInt8]
    ∧ counted_text ops (.Sin e) d =
        (cstr "sin(").map some ++ counted_text ops e (d + 1) ++ [some ')'.toUInt8]
    ∧ counted_text ops (.Cos e) d =
        (cstr "cos(").map some ++ counted_text ops e (d + 1) ++ [some ')'.toUInt8]
    ∧ counted_text ops (.Tan e) d =
        (cstr "tan(").map some ++ counted_text ops e (d + 1) ++ [some ')'.toUInt8]
    ∧ serialize_text intEnv (.Sin (.Sum (.Var 'x'.toUInt8) (.Var 'y'.toUInt8)))
        = (cstr "sin((x+y))").map some := by
  refine ⟨?_, ?_, ?_, ?_, by decide⟩ <;> simp [counted_text_eq, rendering]

/-- Claim C23: at the root `Negation(e)` is `-` followed by the text of `e` as a
child, and `Inverse(e)` is the text of `e` as a child followed by the five bytes
of the suffix; at any other depth the same between parentheses;
`Negation(Negation(Const c))` is `-(-`, the text of `c` and `)`. -/
theorem serializer_unary_forms {F : Type} (ops : FloatEnv F) (e : expr_t F) (c : F)
    (d : Nat) :
    counted_text ops (.Negation e) 0 = some '-'.toUInt8 :: counted_text ops e 1
    ∧ counted_text ops (.Inverse e) 0 = counted_text ops e 1 ++ (cstr "⁻¹").map some
    ∧ counted_text ops (.Negation e) (d + 1) =
        some '('.toUInt8 :: some '-'.toUInt8 :: counted_text ops e (d + 2)
          ++ [some ')'.toUInt8]
    ∧ counted_text ops (.Inverse e) (d + 1) =
        some '('.toUInt8 :: counted_text ops e (d + 2) ++ (cstr "⁻¹").map some
          ++ [some ')'.toUInt8]
    ∧ serialize_text ops (.Negation (.Negation (.Const c)))
        = (cstr "-(-").map some ++ (ops.fmt c).map some ++ [some ')'.toUInt8] := by
  have h : cstr "-(-" = ['-'.toUInt8, '('.toUInt8, '-'.toUInt8] := by decide
  refine ⟨?_, ?_, ?_, ?_, ?_⟩ <;>
    simp [counted_text_eq, serialize_text_eq, rendering, wrap, h]

theorem trailing_nul_depth_pos {F : Type} (e : expr_t F) :
    ∀ d1 d2 : Nat, 0 < d1 → 0 < d2 → trailing_nul e d1 = trailing_nul e d2 := by
  induction e with
  | Const c => intro d1 d2 _ _; rfl
  | Var v => intro d1 d2 _ _; rfl
  | Product x y ihx ihy =>
    intro d1 d2 h1 h2
    simp only [trailing_nul]
    rw [ihx (d1 + 1) (d2 + 1) (by omega) (by omega), ihy (d1 + 1) (d2 + 1) (by omega) (by omega)]
  | Quotient x y ihx ihy | Sum x y ihx ihy | Difference x y ihx ihy
  | Exponential x y ihx ihy | Power x y ihx ihy =>
    intro d1 d2 h1 h2
    simp [trailing_nul, h1, h2]
  | Logarithm x y ihx ihy => intro d1 d2 _ _; rfl
  | Sin x ihx | Cos x ihx | Tan x ihx | Inverse x ihx => intro d1 d2 _ _; rfl
  | Negation x ihx =>
    intro d1 d2 h1 h2
    simp [trailing_nul, h1, h2]

/-- With the depth a natural number, it only tells the root from the rest: at
any two depths above 0 the measuring pass returns the same size and the
rendering pass leaves the same memory and returns the same count. -/
theorem serializer_depth_is_a_flag {F : Type} (ops : FloatEnv F) (e : expr_t F)
    (m : Mem) (buf d1 d2 : Nat) :
    count_serialized_expr_size ops e (d1 + 1) = count_serialized_expr_size ops e (d2 + 1)
    ∧ counted_serialize_expr ops m buf e (d1 + 1) = counted_serialize_expr ops m buf e (d2 + 1)
    ∧ counted_text ops e (d1 + 1) = counted_text ops e (d2 + 1) := by
  have h := rendering_depth_pos ops e (d1 + 1) (d2 + 1) (by omega) (by omega)
  have hn := trailing_nul_depth_pos e (d1 + 1) (d2 + 1) (by omega) (by omega)
  refine ⟨?_, ?_, ?_⟩
  · rw [count_serialized_expr_size_eq, count_serialized_expr_size_eq, h]
  · rw [counted_serialize_expr_eq, counted_serialize_expr_eq, h, hn]
  · rw [counted_text_eq, counted_text_eq, h]

/-! ## The earlier variant: `Negation` of a constant -/

/-- Claim C24, evaluated on the code of the earlier variant: `is_simplifiable`
reports `Negation(Const c)` simplifiable, and `simplify` on `Negation(Const c)`
does not return, whatever the number of nested activations allowed: the
rebuilt node is the node it was called on, and it is passed to `simplify`
again. -/
theorem earlier_simplify_negation_constant {F : Type} (ops : FloatEnv F)
    (powf : F → F → F) (c : F) (fuel : Nat) :
    Earlier.is_simplifiable (Earlier.expr_t.Negation (.Const c)) = true
    ∧ Earlier.simplify_fuel ops powf fuel (.Negation (.Const c)) = none := by
  refine ⟨rfl, ?_⟩
  induction fuel with
  | zero => rfl
  | succ n ih =>
    rw [Earlier.simplify_fuel]
    cases n with
    | zero => rfl
    | succ k =>
      have h1 : Earlier.simplify_fuel ops powf (k + 1) (.Const c) = some (.Const c) := rfl
      have h2 : Earlier.is_simplifiable (Earlier.expr_t.Negation (.Const c)) = true := rfl
      simp only [h1, h2, if_true]
      exact ih

/-! ## Simplifier: the extra pass, the shape and the size of the result -/

/-- Claim C25: once the children are simplified, the rebuilt binary or `Sin`,
`Cos`, `Tan`, `Inverse` node is reported simplifiable exactly when all its
children are constants; `simplify` on such a node returns the folded constant
within one activation, that is without calling itself. -/
theorem simplify_extra_pass_is_one_fold {F : Type} (ops : FloatEnv F) (x y : expr_t F)
    (a b : F) :
    is_simplifiable (.Product (simplify ops x) (simplify ops y))
        = ((simplify ops x).variant == EXPR_CONSTANT && (simplify ops y).variant == EXPR_CONSTANT)
    ∧ is_simplifiable (.Quotient (simplify ops x) (simplify ops y))
        = ((simplify ops x).variant == EXPR_CONSTANT && (simplify ops y).variant == EXPR_CONSTANT)
    ∧ is_simplifiable (.Sum (simplify ops x) (simplify ops y))
        = ((simplify ops x).variant == EXPR_CONSTANT && (simplify ops y).variant == EXPR_CONSTANT)
    ∧ is_simplifiable (.Difference (simplify ops x) (simplify ops y))
        = ((simplify ops x).variant == EXPR_CONSTANT && (simplify ops y).variant == EXPR_CONSTANT)
    ∧ is_simplifiable (.Exponential (simplify ops x) (simplify ops y))
        = ((simplify ops x).variant == EXPR_CONSTANT && (simplify ops y).variant == EXPR_CONSTANT)
    ∧ is_simplifiable (.Logarithm (simplify ops x) (simplify ops y))
        = ((simplify ops x).variant == EXPR_CONSTANT && (simplify ops y).variant == EXPR_CONSTANT)
    ∧ is_simplifiable (.Power (simplify ops x) (simplify ops y))
        = ((simplify ops x).variant == EXPR_CONSTANT && (simplify ops y).variant == EXPR_CONSTANT)
    ∧ is_simplifiable (.Sin (simplify ops x)) = ((simplify ops x).variant == EXPR_CONSTANT)
    ∧ is_simplifiable (.Cos (simplify ops x)) = ((simplify ops x).variant == EXPR_CONSTANT)
    ∧ is_simplifiable (.Tan (simplify ops x)) = ((simplify ops x).variant == EXPR_CONSTANT)
    ∧ is_simplifiable (.Inverse (simplify ops x)) = ((simplify ops x).variant == EXPR_CONSTANT)
    ∧ simplify_fuel ops 1 (.Product (.Const a) (.Const b)) = some (.Const (ops.mul a b))
    ∧ simplify_fuel ops 1 (.Quotient (.Const a) (.Const b)) = some (.Const (ops.div a b))
    ∧ simplify_fuel ops 1 (.Sum (.Const a) (.Const b)) = some (.Const (ops.add a b))
    ∧ simplify_fuel ops 1 (.Difference (.Const a) (.Const b)) = some (.Const (ops.sub a b))
    ∧ simplify_fuel ops 1 (.Exponential (.Const a) (.Const b)) = some (.Const (ops.pow a b))
    ∧ simplify_fuel ops 1 (.Logarithm (.Const a) (.Const b)) = some (.Const (ops.div (ops.log b) (ops.log a)))
    ∧ simplify_fuel ops 1 (.Power (.Const a) (.Const b)) = some (.Const (ops.pow a b))
    ∧ simplify_fuel ops 1 (.Sin (.Const a)) = some (.Const (ops.sin a))
    ∧ simplify_fuel ops 1 (.Cos (.Const a)) = some (.Const (ops.cos a))
    ∧ simplify_fuel ops 1 (.Tan (.Const a)) = some (.Const (ops.tan a))
    ∧ simplify_fuel ops 1 (.Inverse (.Const a)) = some (.Const (ops.div ops.one a)) := by
  have hx := is_simplifiable_bottom_up ops x
  have hy := is_simplifiable_bottom_up ops y
  simp only [simplify_eq_bottom_up]
  refine ⟨?_, ?_, ?_, ?_, ?_, ?_, ?_, ?_, ?_, ?_, ?_,
    rfl, rfl, rfl, rfl, rfl, rfl, rfl, rfl, rfl, rfl, rfl⟩
  all_goals
    first
    | rw [is_simplifiable_binary_iff _ _ _ (by simp), hx, hy]; simp
    | rw [is_simplifiable_unary_iff _ _ (by simp), hx]; simp

theorem variant_fold2 {F : Type} (f : F → F → F) (mk : expr_t F → expr_t F → expr_t F)
    (x y : expr_t F) :
    ((fold2 f mk x y).variant == EXPR_CONSTANT)
      = ((x.variant == EXPR_CONSTANT && y.variant == EXPR_CONSTANT)
        || ((mk x y).variant == EXPR_CONSTANT)) := by
  cases hc : (x.variant == EXPR_CONSTANT && y.variant == EXPR_CONSTANT)
  · rw [fold2_of_not_const f mk x y hc, Bool.false_or]
  · rw [Bool.and_eq_true, variant_eq_constant, variant_eq_constant] at hc
    obtain ⟨⟨a, rfl⟩, ⟨b, rfl⟩⟩ := hc
    rfl

theorem variant_fold1 {F : Type} (f : F → F) (mk : expr_t F → expr_t F) (x : expr_t F) :
    ((fold1 f mk x).variant == EXPR_CONSTANT)
      = ((x.variant == EXPR_CONSTANT) || ((mk x).variant == EXPR_CONSTANT)) := by
  cases hc : (x.variant == EXPR_CONSTANT)
  · rw [fold1_of_not_const f mk x hc, Bool.false_or]
  · rw [variant_eq_constant] at hc
    obtain ⟨a, rfl⟩ := hc
    rfl

theorem variant_bottom_up {F : Type} (ops : FloatEnv F) (e : expr_t F) :
    ((bottom_up ops e).variant == EXPR_CONSTANT) = !has_variable_or_negation e := by
  induction e with
  | Const c => rfl
  | Var v => rfl
  | Product x y ihx ihy | Quotient x y ihx ihy | Sum x y ihx ihy | Difference x y ihx ihy
  | Exponential x y ihx ihy | Logarithm x y ihx ihy | Power x y ihx ihy =>
    rw [bottom_up, variant_fold2, ihx, ihy, has_variable_or_negation, Bool.not_or]
    simp [expr_t.variant]
  | Sin x ihx | Cos x ihx | Tan x ihx | Inverse x ihx =>
    rw [bottom_up, variant_fold1, ihx, has_variable_or_negation]
    simp [expr_t.variant]
  | Negation x ihx => rfl

/-- Claim C26: `simplify e` is a `Constant` node exactly when no `Variable` node and
no `Negation` node occurs in `e`; with one of them anywhere in `e`, the root of
`simplify e` is not a `Constant`. -/
theorem simplify_constant_iff {F : Type} (ops : FloatEnv F) (e : expr_t F) :
    ((simplify ops e).variant == EXPR_CONSTANT) = !has_variable_or_negation e := by
  rw [simplify_eq_bottom_up]
  exact variant_bottom_up ops e

theorem size_pos {F : Type} (e : expr_t F) : 1 ≤ size e := by
  cases e <;> simp [size]

theorem size_fold2 {F : Type} (f : F → F → F) (mk : expr_t F → expr_t F → expr_t F)
    (x y : expr_t F) :
    size (fold2 f mk x y) =
      if (x.variant == EXPR_CONSTANT && y.variant == EXPR_CONSTANT) = true then 1
      else size (mk x y) := by
  cases hc : (x.variant == EXPR_CONSTANT && y.variant == EXPR_CONSTANT)
  · rw [fold2_of_not_const f mk x y hc]
    simp
  · rw [Bool.and_eq_true, variant_eq_constant, variant_eq_constant] at hc
    obtain ⟨⟨a, rfl⟩, ⟨b, rfl⟩⟩ := hc
    rfl

theorem size_fold1 {F : Type} (f : F → F) (mk : expr_t F → expr_t F) (x : expr_t F) :
    size (fold1 f mk x) =
      if (x.variant == EXPR_CONSTANT) = true then 1 else size (mk x) := by
  cases hc : (x.variant == EXPR_CONSTANT)
  · rw [fold1_of_not_const f mk x hc]
    simp
  · rw [variant_eq_constant] at hc
    obtain ⟨a, rfl⟩ := hc
    rfl

theorem size_of_variant_constant {F : Type} (z : expr_t F)
    (h : (z.variant == EXPR_CONSTANT) = true) : size z = 1 := by
  rw [variant_eq_constant] at h
  obtain ⟨c, rfl⟩ := h
  rfl

theorem bottom_up_constant_of_size {F : Type} (ops : FloatEnv F) (z : expr_t F)
    (hz : size z = 1) (hc : ((bottom_up ops z).variant == EXPR_CONSTANT) = true) :
    (z.variant == EXPR_CONSTANT) = true := by
  cases z with
  | Const c => rfl
  | Var v => simp [bottom_up, expr_t.variant] at hc
  | Product x y | Quotient x y | Sum x y | Difference x y | Exponential x y
  | Logarithm x y | Power x y =>
    have := size_pos x
    simp only [size] at hz
    omega
  | Sin x | Cos x | Tan x | Negation x | Inverse x =>
    have := size_pos x
    simp only [size] at hz
    omega

theorem size_bottom_up {F : Type} (ops : FloatEnv F) (e : expr_t F) :
    size (bottom_up ops e) ≤ size e
    ∧ (size (bottom_up ops e) < size e ↔ is_simplifiable e = true) := by
  induction e with
  | Const c => simp [bottom_up, is_simplifiable]
  | Var v => simp [bottom_up, is_simplifiable]
  | Product x y ihx ihy | Quotient x y ihx ihy | Sum x y ihx ihy | Difference x y ihx ihy
  | Exponential x y ihx ihy | Logarithm x y ihx ihy | Power x y ihx ihy =>
    have hx := size_pos (bottom_up ops x)
    have hy := size_pos (bottom_up ops y)
    have hx' := size_pos x
    have hy' := size_pos y
    have h1 := ihx.1
    have h2 := ihy.1
    rw [bottom_up, size_fold2, is_simplifiable_binary_iff _ x y (by simp)]
    simp only [size, Bool.or_eq_true, ← ihx.2, ← ihy.2]
    by_cases hc : (x.variant == EXPR_CONSTANT && y.variant == EXPR_CONSTANT) = true
    · have hc2 := hc
      rw [Bool.and_eq_true, variant_eq_constant, variant_eq_constant] at hc2
      obtain ⟨⟨a, rfl⟩, ⟨b, rfl⟩⟩ := hc2
      simp [bottom_up, expr_t.variant, size]
    · by_cases hc' : ((bottom_up ops x).variant == EXPR_CONSTANT
          && (bottom_up ops y).variant == EXPR_CONSTANT) = true
      · rw [if_pos hc']
        have hne : ¬ (size x = 1 ∧ size y = 1) := by
          intro ⟨h3, h4⟩
          apply hc
          rw [Bool.and_eq_true] at hc' ⊢
          exact ⟨bottom_up_constant_of_size ops x h3 hc'.1,
            bottom_up_constant_of_size ops y h4 hc'.2⟩
        rw [Bool.and_eq_true] at hc'
        have s1 := size_of_variant_constant _ hc'.1
        have s2 := size_of_variant_constant _ hc'.2
        simp only [hc, false_or, Bool.false_eq_true]
        refine ⟨by omega, ⟨fun _ => by omega, fun _ => by omega⟩⟩
      · rw [if_neg hc']
        simp only [hc, false_or, Bool.false_eq_true]
        refine ⟨by omega, ⟨fun _ => by omega, fun _ => by omega⟩⟩
  | Sin x ihx | Cos x ihx | Tan x ihx | Inverse x ihx =>
    have hx := size_pos (bottom_up ops x)
    have hx' := size_pos x
    have h1 := ihx.1
    rw [bottom_up, size_fold1, is_simplifiable_unary_iff _ x (by simp)]
    simp only [size, Bool.or_eq_true, ← ihx.2]
    by_cases hc : (x.variant == EXPR_CONSTANT) = true
    · have hc2 := hc
      rw [variant_eq_constant] at hc2
      obtain ⟨a, rfl⟩ := hc2
      simp [bottom_up, expr_t.variant, size]
    · by_cases hc' : ((bottom_up ops x).variant == EXPR_CONSTANT) = true
      · rw [if_pos hc']
        have hne : ¬ (size x = 1) := fun h3 => hc (bottom_up_constant_of_size ops x h3 hc')
        have s1 := size_of_variant_constant _ hc'
        simp only [hc, false_or, Bool.false_eq_true]
        refine ⟨by omega, ⟨fun _ => by omega, fun _ => by omega⟩⟩
      · rw [if_neg hc']
        simp only [hc, false_or, Bool.false_eq_true]
        refine ⟨by omega, ⟨fun _ => by omega, fun _ => by omega⟩⟩
  | Negation x ihx =>
    have h : is_simplifiable (expr_t.Negation x) = is_simplifiable x := by
      rw [is_simplifiable]
      cases x <;> simp [expr_t.variant, is_simplifiable]
    rw [bottom_up, h, ← ihx.2]
    simp only [size]
    have h1 := ihx.1
    refine ⟨by omega, ⟨fun _ => by omega, fun _ => by omega⟩⟩

/-- Claim C27: `simplify e` has at most as many nodes as `e`, and strictly fewer
exactly when `is_simplifiable e` is true. -/
theorem simplify_size {F : Type} (ops : FloatEnv F) (e : expr_t F) :
    size (simplify ops e) ≤ size e
    ∧ (size (simplify ops e) < size e ↔ is_simplifiable e = true) := by
  rw [simplify_eq_bottom_up]
  exact size_bottom_up ops e

/-! ## The measured size before and after `simplify` -/

theorem rendering_succ {F : Type} (ops : FloatEnv F) (e : expr_t F) (d : Nat) :
    rendering ops e (d + 1) = wrap (parens_condition e.variant 1) (rendering ops e 0) := by
  cases e <;>
    simp [rendering, wrap, expr_t.variant, parens_condition, rendering_child_depth]

theorem rendering_one_length {F : Type} (ops : FloatEnv F) (e : expr_t F) :
    (rendering ops e 1).length
      = (rendering ops e 0).length + (if parens_condition e.variant 1 = true then 2 else 0) := by
  rw [rendering_succ ops e 0]
  cases parens_condition e.variant 1 <;> simp [wrap]

/-- The root of the closed form has the kind of the root it comes from, or is
a `Constant` that replaced a node other than a `Variable`. -/
theorem variant_bottom_up_cases {F : Type} (ops : FloatEnv F) (e : expr_t F) :
    (bottom_up ops e).variant = e.variant
    ∨ ((bottom_up ops e).variant = EXPR_CONSTANT ∧ e.variant ≠ EXPR_VARIABLE) := by
  cases e with
  | Const c => exact Or.inl rfl
  | Var v => exact Or.inl rfl
  | Negation x => exact Or.inl rfl
  | Product x y | Quotient x y | Sum x y | Difference x y | Exponential x y
  | Logarithm x y | Power x y =>
    rw [bottom_up]
    cases hc : ((bottom_up ops x).variant == EXPR_CONSTANT
      && (bottom_up ops y).variant == EXPR_CONSTANT)
    · rw [fold2_of_not_const _ _ _ _ hc]
      exact Or.inl rfl
    · rw [Bool.and_eq_true, variant_eq_constant, variant_eq_constant] at hc
      obtain ⟨⟨a, ha⟩, ⟨b, hb⟩⟩ := hc
      rw [ha, hb]
      exact Or.inr ⟨rfl, by simp [expr_t.variant]⟩
  | Sin x | Cos x | Tan x | Inverse x =>
    rw [bottom_up]
    cases hc : ((bottom_up ops x).variant == EXPR_CONSTANT)
    · rw [fold1_of_not_const _ _ _ hc]
      exact Or.inl rfl
    · rw [variant_eq_constant] at hc
      obtain ⟨a, ha⟩ := hc
      rw [ha]
      exact Or.inr ⟨rfl, by simp [expr_t.variant]⟩

/-- From the text at depth 0 to the text as a child: no longer either, and
shorter by the two parentheses when a `Sum` became a `Constant`. -/
theorem child_length_le {F : Type} (ops : FloatEnv F) (e : expr_t F)
    (h : (rendering ops (bottom_up ops e) 0).length ≤ (rendering ops e 0).length) :
    (rendering ops (bottom_up ops e) 1).length ≤ (rendering ops e 1).length
    ∧ (e.variant = EXPR_SUM → (bottom_up ops e).variant ≠ EXPR_SUM →
        (rendering ops (bottom_up ops e) 1).length + 2 ≤ (rendering ops e 1).length) := by
  rw [rendering_one_length ops e, rendering_one_length ops (bottom_up ops e)]
  rcases variant_bottom_up_cases ops e with hv | ⟨hv, _⟩
  · rw [hv]
    exact ⟨by omega, fun h1 h2 => absurd h1 h2⟩
  · rw [hv]
    constructor
    · simp [parens_condition]
      omega
    · intro h1 _
      rw [h1]
      simp [parens_condition]
      omega

theorem fold2_length_le {F : Type} (ops : FloatEnv F) (f : F → F → F)
    (mk : expr_t F → expr_t F → expr_t F) (x y : expr_t F) (h : fits2 ops f mk x y = true) :
    (rendering ops (fold2 f mk x y) 0).length ≤ (rendering ops (mk x y) 0).length := by
  unfold fold2
  unfold fits2 at h
  split
  · simp only [serialized_expr_size, count_serialized_expr_size_eq, decide_eq_true_eq] at h
    simpa [rendering] using h
  · exact Nat.le_refl _

theorem fold1_length_le {F : Type} (ops : FloatEnv F) (f : F → F)
    (mk : expr_t F → expr_t F) (x : expr_t F) (h : fits1 ops f mk x = true) :
    (rendering ops (fold1 f mk x) 0).length ≤ (rendering ops (mk x) 0).length := by
  unfold fold1
  unfold fits1 at h
  split
  · simp only [serialized_expr_size, count_serialized_expr_size_eq, decide_eq_true_eq] at h
    simpa [rendering] using h
  · exact Nat.le_refl _

theorem rendering_product_length {F : Type} (ops : FloatEnv F) (x y : expr_t F) (d : Nat) :
    (rendering ops (.Product x y) d).length
      = (rendering ops x (d + 1)).length + (rendering ops y (d + 1)).length
        + (if ((x.variant = EXPR_CONSTANT ∧ y.variant = EXPR_VARIABLE) ∨ x.variant = EXPR_SUM)
            ∨ ((x.variant = EXPR_VARIABLE ∧ y.variant = EXPR_CONSTANT) ∨ y.variant = EXPR_SUM)
          then 0 else 1) := by
  simp only [rendering, beq_iff_eq, Bool.or_eq_true, Bool.and_eq_true]
  by_cases h1 : (x.variant = EXPR_CONSTANT ∧ y.variant = EXPR_VARIABLE) ∨ x.variant = EXPR_SUM
  · simp [h1]
  · by_cases h2 : (x.variant = EXPR_VARIABLE ∧ y.variant = EXPR_CONSTANT)
        ∨ y.variant = EXPR_SUM
    · simp [h1, h2]
      omega
    · simp [h1, h2]
      omega

theorem product_length_mono {F : Type} (ops : FloatEnv F) (x y : expr_t F)
    (hx : (rendering ops (bottom_up ops x) 1).length ≤ (rendering ops x 1).length
      ∧ (x.variant = EXPR_SUM → (bottom_up ops x).variant ≠ EXPR_SUM →
        (rendering ops (bottom_up ops x) 1).length + 2 ≤ (rendering ops x 1).length))
    (hy : (rendering ops (bottom_up ops y) 1).length ≤ (rendering ops y 1).length
      ∧ (y.variant = EXPR_SUM → (bottom_up ops y).variant ≠ EXPR_SUM →
        (rendering ops (bottom_up ops y) 1).length + 2 ≤ (rendering ops y 1).length)) :
    (rendering ops (.Product (bottom_up ops x) (bottom_up ops y)) 0).length
      ≤ (rendering ops (.Product x y) 0).length := by
  rw [rendering_product_length, rendering_product_length]
  simp only [Nat.zero_add]
  have sx := variant_bottom_up_cases ops x
  have sy := variant_bottom_up_cases ops y
  have h1 := hx.1
  have h2 := hy.1
  by_cases hP' : (((bottom_up ops x).variant = EXPR_CONSTANT
        ∧ (bottom_up ops y).variant = EXPR_VARIABLE) ∨ (bottom_up ops x).variant = EXPR_SUM)
      ∨ (((bottom_up ops x).variant = EXPR_VARIABLE
        ∧ (bottom_up ops y).variant = EXPR_CONSTANT) ∨ (bottom_up ops y).variant = EXPR_SUM)
  · rw [if_pos hP']
    split <;> omega
  · rw [if_neg hP']
    by_cases hP : ((x.variant = EXPR_CONSTANT ∧ y.variant = EXPR_VARIABLE)
          ∨ x.variant = EXPR_SUM)
        ∨ ((x.variant = EXPR_VARIABLE ∧ y.variant = EXPR_CONSTANT) ∨ y.variant = EXPR_SUM)
    · rw [if_pos hP]
      rcases hP with (⟨hcx, hvy⟩ | hsx) | (⟨hvx, hcy⟩ | hsy)
      · exfalso
        apply hP'
        refine Or.inl (Or.inl ⟨?_, ?_⟩)
        · rcases sx with h | ⟨h, _⟩
          · exact h.trans hcx
          · exact h
        · rcases sy with h | ⟨_, h⟩
          · exact h.trans hvy
          · exact absurd hvy h
      · have hns : (bottom_up ops x).variant ≠ EXPR_SUM := fun h => hP' (Or.inl (Or.inr h))
        have := hx.2 hsx hns
        omega
      · exfalso
        apply hP'
        refine Or.inr (Or.inl ⟨?_, ?_⟩)
        · rcases sx with h | ⟨_, h⟩
          · exact h.trans hvx
          · exact absurd hvx h
        · rcases sy with h | ⟨h, _⟩
          · exact h.trans hcy
          · exact h
      · have hns : (bottom_up ops y).variant ≠ EXPR_SUM := fun h => hP' (Or.inr (Or.inr h))
        have := hy.2 hsy hns
        omega
    · rw [if_neg hP]
      omega

/-- When every fold fits, the closed form has a text no longer than the tree it
comes from. -/
theorem bottom_up_length_le {F : Type} (ops : FloatEnv F) (e : expr_t F) :
    folds_fit ops e = true →
      (rendering ops (bottom_up ops e) 0).length ≤ (rendering ops e 0).length := by
  induction e with
  | Const c => intro _; exact Nat.le_refl _
  | Var v => intro _; exact Nat.le_refl _
  | Product x y ihx ihy =>
    intro h
    simp only [folds_fit, Bool.and_eq_true, simplify_eq_bottom_up] at h
    obtain ⟨⟨h1, h2⟩, h3⟩ := h
    rw [bottom_up]
    exact Nat.le_trans (fold2_length_le ops _ _ _ _ h3)
      (product_length_mono ops x y (child_length_le ops x (ihx h1))
        (child_length_le ops y (ihy h2)))
  | Quotient x y ihx ihy | Sum x y ihx ihy | Difference x y ihx ihy
  | Exponential x y ihx ihy | Logarithm x y ihx ihy | Power x y ihx ihy =>
    intro h
    simp only [folds_fit, Bool.and_eq_true, simplify_eq_bottom_up] at h
    obtain ⟨⟨h1, h2⟩, h3⟩ := h
    have cx := (child_length_le ops x (ihx h1)).1
    have cy := (child_length_le ops y (ihy h2)).1
    rw [bottom_up]
    refine Nat.le_trans (fold2_length_le ops _ _ _ _ h3) ?_
    simp only [rendering, wrap, decide_eq_true_eq, Nat.lt_irrefl, if_false, gt_iff_lt,
      List.length_append, List.length_cons, Nat.zero_add]
    omega
  | Sin x ihx | Cos x ihx | Tan x ihx | Inverse x ihx =>
    intro h
    simp only [folds_fit, Bool.and_eq_true, simplify_eq_bottom_up] at h
    obtain ⟨h1, h3⟩ := h
    have cx := (child_length_le ops x (ihx h1)).1
    rw [bottom_up]
    refine Nat.le_trans (fold1_length_le ops _ _ _ h3) ?_
    simp only [rendering, wrap, decide_eq_true_eq, Nat.lt_irrefl, if_false, gt_iff_lt,
      List.length_append, List.length_cons, Nat.zero_add]
    omega
  | Negation x ihx =>
    intro h
    simp only [folds_fit] at h
    have cx := (child_length_le ops x (ihx h)).1
    rw [bottom_up]
    simp only [rendering, wrap, decide_eq_true_eq, Nat.lt_irrefl, if_false, gt_iff_lt,
      List.length_append, List.length_cons, Nat.zero_add]
    omega

/-- Claim C28 fails as stated: `Product(Const 99, Const 99)` measures 5 bytes
(`99*99`) and its simplification `Const 9801` measures 7 (`9.8e+03`). -/
theorem simplify_can_lengthen_the_text :
    serialized_expr_size intEnv (.Product (.Const 99) (.Const 99)) = 5
    ∧ simplify intEnv (.Product (.Const 99) (.Const 99)) = .Const 9801
    ∧ serialize_text intEnv (.Const 9801) = (cstr "9.8e+03").map some
    ∧ serialized_expr_size intEnv (simplify intEnv (.Product (.Const 99) (.Const 99))) = 7
    ∧ ¬ (serialized_expr_size intEnv (simplify intEnv (.Product (.Const 99) (.Const 99)))
        ≤ serialized_expr_size intEnv (.Product (.Const 99) (.Const 99))) := by
  decide

/-- Claim C28, amended: when every constant `simplify` produces by a fold has a
text no longer than the measured size of the node it replaces, the measured
size of `simplify e` is at most the measured size of `e`. -/
theorem simplify_size_le_of_folds_fit {F : Type} (ops : FloatEnv F) (e : expr_t F)
    (h : folds_fit ops e = true) :
    serialized_expr_size ops (simplify ops e) ≤ serialized_expr_size ops e := by
  rw [simplify_eq_bottom_up, serialized_expr_size, serialized_expr_size,
    count_serialized_expr_size_eq, count_serialized_expr_size_eq]
  exact bottom_up_length_le ops e h

theorem simplify_size_le_of_folds_fit_witness :
    folds_fit intEnv (.Product (.Sum (.Const 2) (.Const 3)) (.Const 4)) = true
    ∧ serialized_expr_size intEnv
        (simplify intEnv (.Product (.Sum (.Const 2) (.Const 3)) (.Const 4)))
      ≤ serialized_expr_size intEnv (.Product (.Sum (.Const 2) (.Const 3)) (.Const 4)) :=
  ⟨by decide, simplify_size_le_of_folds_fit intEnv _ (by decide)⟩

/-! ## The serializer with the depth held in a `usize` -/

theorem usize_succ_eq (d : Nat) (h : d + 1 < 2 ^ 64) : usize_succ d = d + 1 :=
  Nat.mod_eq_of_lt h

/-- While no `depth + 1` inside the tree wraps, the measuring pass on `usize`
depths is the measuring pass on natural depths. -/
theorem count_serialized_expr_size_usize_eq {F : Type} (ops : FloatEnv F) (e : expr_t F) :
    ∀ d : Nat, d + height e ≤ 2 ^ 64 →
      count_serialized_expr_size_usize ops e d = count_serialized_expr_size ops e d := by
  induction e with
  | Const c => intro d _; rfl
  | Var v => intro d _; rfl
  | Product x y ihx ihy | Quotient x y ihx ihy | Sum x y ihx ihy | Difference x y ihx ihy
  | Exponential x y ihx ihy | Logarithm x y ihx ihy | Power x y ihx ihy =>
    intro d h
    simp only [height] at h
    have hx := height_pos x
    have hs : usize_succ d = d + 1 := usize_succ_eq d (by omega)
    simp only [count_serialized_expr_size_usize, count_serialized_expr_size, hs,
      ihx (d + 1) (by omega), ihy (d + 1) (by omega)]
  | Sin x ihx | Cos x ihx | Tan x ihx | Negation x ihx | Inverse x ihx =>
    intro d h
    simp only [height] at h
    have hx := height_pos x
    have hs : usize_succ d = d + 1 := usize_succ_eq d (by omega)
    simp only [count_serialized_expr_size_usize, count_serialized_expr_size, hs,
      ihx (d + 1) (by omega)]

/-- While no `depth + 1` inside the tree wraps, the rendering pass on `usize`
depths is the rendering pass on natural depths. -/
theorem counted_serialize_expr_usize_eq {F : Type} (ops : FloatEnv F) (e : expr_t F) :
    ∀ (m : Mem) (buf d : Nat), d + height e ≤ 2 ^ 64 →
      counted_serialize_expr_usize ops m buf e d = counted_serialize_expr ops m buf e d := by
  induction e with
  | Const c => intro m buf d _; rfl
  | Var v => intro m buf d _; rfl
  | Product x y ihx ihy | Quotient x y ihx ihy | Sum x y ihx ihy | Difference x y ihx ihy
  | Exponential x y ihx ihy | Logarithm x y ihx ihy | Power x y ihx ihy =>
    intro m buf d h
    simp only [height] at h
    have hx := height_pos x
    have hs : usize_succ d = d + 1 := usize_succ_eq d (by omega)
    have ex : ∀ m buf, counted_serialize_expr_usize ops m buf x (d + 1)
        = counted_serialize_expr ops m buf x (d + 1) := fun m buf => ihx m buf _ (by omega)
    have ey : ∀ m buf, counted_serialize_expr_usize ops m buf y (d + 1)
        = counted_serialize_expr ops m buf y (d + 1) := fun m buf => ihy m buf _ (by omega)
    simp only [counted_serialize_expr_usize, counted_serialize_expr, hs, ex, ey]
  | Sin x ihx | Cos x ihx | Tan x ihx | Negation x ihx | Inverse x ihx =>
    intro m buf d h
    simp only [height] at h
    have hx := height_pos x
    have hs : usize_succ d = d + 1 := usize_succ_eq d (by omega)
    have ex : ∀ m buf, counted_serialize_expr_usize ops m buf x (d + 1)
        = counted_serialize_expr ops m buf x (d + 1) := fun m buf => ihx m buf _ (by omega)
    simp only [counted_serialize_expr_usize, counted_serialize_expr, hs, ex]

/-- Claim C29 fails as stated: at depth `2^64 - 1` the expression `depth + 1` wraps
to 0 and the children are handled as roots: `Sum(Sum(a, b), c)` measures 7 and
is written `(a+b+c)` there, against 9 and `((a+b)+c)` at depth 1. -/
theorem serializer_depth_wraps :
    count_serialized_expr_size_usize intEnv
        (.Sum (.Sum (.Var 'a'.toUInt8) (.Var 'b'.toUInt8)) (.Var 'c'.toUInt8)) (2 ^ 64 - 1) = 7
    ∧ count_serialized_expr_size_usize intEnv
        (.Sum (.Sum (.Var 'a'.toUInt8) (.Var 'b'.toUInt8)) (.Var 'c'.toUInt8)) 1 = 9
    ∧ (counted_serialize_expr_usize intEnv Mem.fresh 0
        (.Sum (.Sum (.Var 'a'.toUInt8) (.Var 'b'.toUInt8)) (.Var 'c'.toUInt8))
        (2 ^ 64 - 1)).1.read 0 7 = (cstr "(a+b+c)").map some
    ∧ (counted_serialize_expr_usize intEnv Mem.fresh 0
        (.Sum (.Sum (.Var 'a'.toUInt8) (.Var 'b'.toUInt8)) (.Var 'c'.toUInt8))
        1).1.read 0 9 = (cstr "((a+b)+c)").map some
    ∧ ¬ (count_serialized_expr_size_usize intEnv
          (.Sum (.Sum (.Var 'a'.toUInt8) (.Var 'b'.toUInt8)) (.Var 'c'.toUInt8)) (2 ^ 64 - 1)
        = count_serialized_expr_size_usize intEnv
          (.Sum (.Sum (.Var 'a'.toUInt8) (.Var 'b'.toUInt8)) (.Var 'c'.toUInt8)) 1) := by
  decide

/-- Claim C29, amended: at any two depths above 0 from which no `depth + 1`
inside the tree wraps (`d + height e ≤ 2^64`), the measuring pass returns the
same size and the rendering pass leaves the same memory and returns the same
count, so writes the same text. -/
theorem serializer_usize_depth_is_a_flag {F : Type} (ops : FloatEnv F) (e : expr_t F)
    (m : Mem) (buf d1 d2 : Nat) (h1 : 0 < d1) (h2 : 0 < d2)
    (b1 : d1 + height e ≤ 2 ^ 64) (b2 : d2 + height e ≤ 2 ^ 64) :
    count_serialized_expr_size_usize ops e d1 = count_serialized_expr_size_usize ops e d2
    ∧ counted_serialize_expr_usize ops m buf e d1
        = counted_serialize_expr_usize ops m buf e d2 := by
  obtain ⟨k1, rfl⟩ : ∃ k, d1 = k + 1 := ⟨d1 - 1, by omega⟩
  obtain ⟨k2, rfl⟩ : ∃ k, d2 = k + 1 := ⟨d2 - 1, by omega⟩
  have h := serializer_depth_is_a_flag ops e m buf k1 k2
  rw [count_serialized_expr_size_usize_eq ops e _ b1,
    count_serialized_expr_size_usize_eq ops e _ b2,
    counted_serialize_expr_usize_eq ops e m buf _ b1,
    counted_serialize_expr_usize_eq ops e m buf _ b2]
  exact ⟨h.1, h.2.1⟩

theorem serializer_usize_depth_is_a_flag_witness :
    (0 < 1 ∧ 0 < 2 ^ 64 - 3)
    ∧ (1 + height (expr_t.Sum (.Sum (.Var 'a'.toUInt8) (.Var 'b'.toUInt8))
          (.Var 'c'.toUInt8) : expr_t Int) ≤ 2 ^ 64
      ∧ 2 ^ 64 - 3 + height (expr_t.Sum (.Sum (.Var 'a'.toUInt8) (.Var 'b'.toUInt8))
          (.Var 'c'.toUInt8) : expr_t Int) ≤ 2 ^ 64)
    ∧ (count_serialized_expr_size_usize intEnv
          (.Sum (.Sum (.Var 'a'.toUInt8) (.Var 'b'.toUInt8)) (.Var 'c'.toUInt8)) 1
        = count_serialized_expr_size_usize intEnv
          (.Sum (.Sum (.Var 'a'.toUInt8) (.Var 'b'.toUInt8)) (.Var 'c'.toUInt8)) (2 ^ 64 - 3)
      ∧ counted_serialize_expr_usize intEnv Mem.fresh 0
          (.Sum (.Sum (.Var 'a'.toUInt8) (.Var 'b'.toUInt8)) (.Var 'c'.toUInt8)) 1
        = counted_serialize_expr_usize intEnv Mem.fresh 0
          (.Sum (.Sum (.Var 'a'.toUInt8) (.Var 'b'.toUInt8)) (.Var 'c'.toUInt8))
          (2 ^ 64 - 3)) :=
  ⟨⟨by decide, by decide⟩, ⟨by decide, by decide⟩,
    serializer_usize_depth_is_a_flag intEnv _ Mem.fresh 0 1 (2 ^ 64 - 3)
      (by decide) (by decide) (by decide) (by decide)⟩

end Libseq
